import Mathlib

set_option maxRecDepth 100000

/-!
Verification of the incremental structured-response recoverer of the
echo-sports repository (src/unnamed/part_000).

The core under study is the function `tryParsePartialJSON` (lines 24-78 of
src/unnamed/part_000): it first attempts a strict `JSON.parse` of the whole
buffer and returns the decoded value verbatim on success; on failure it runs a
regex-based structural salvage pass extracting `summary`, `events` and
`barTalk`, and the caller `handleSportsSearch` (lines 154-161) applies a
truthiness-based completeness check to the final buffer.

The embedding below models:
  - JavaScript values produced by `JSON.parse` as the inductive type `JVal`
    (with an `undef` constructor for JavaScript `undefined`, which is what
    property access on a missing key yields);
  - `JSON.parse` as a fuelled, executable recursive-descent parser `jsonParse`
    (`none` models a thrown SyntaxError).  JSON numbers are kept as their
    validated lexeme: no claim depends on numeric value semantics.  The one
    deliberate divergence is `\uXXXX` escapes naming UTF-16 surrogate halves:
    JavaScript strings may hold lone surrogates, Lean strings cannot, so such
    an escape decodes to U+FFFD; no claim involves surrogate escapes;
  - each regular expression of the source by a scanner with the exact
    match semantics of the JavaScript regex engine on that pattern (the
    derivation from backtracking semantics is documented at each scanner);
  - the salvage pass and the final completeness check literally, step by step.
-/

/-! ## JavaScript values -/

-- A JavaScript value as far as this program can observe it.  `undef` is
-- JavaScript `undefined`: the value of a property access on a missing key and
-- of the salvage result's `summary` field when no summary was found.
inductive JVal where
  | undef
  | null
  | bool (b : Bool)
  | num (lexeme : String)
  | str (s : String)
  | arr (elems : List JVal)
  | obj (fields : List (String × JVal))

-- JavaScript property access `v[k]`: `undefined` unless `v` is an object
-- with the key.  Duplicate keys cannot arise from the parser (`insertKV`
-- overwrites), but `find?` takes the first binding regardless.
def objGet (v : JVal) (k : String) : JVal :=
  match v with
  | .obj fields =>
    match fields.find? (fun p => p.1 == k) with
    | some p => p.2
    | none => .undef
  | _ => .undef

def arrElems (v : JVal) : List JVal :=
  match v with
  | .arr xs => xs
  | _ => []

def arrFirst (v : JVal) : JVal :=
  match v with
  | .arr (x :: _) => x
  | _ => .undef

def isArrVal (v : JVal) : Bool :=
  match v with
  | .arr _ => true
  | _ => false

def isStrVal (v : JVal) : Bool :=
  match v with
  | .str _ => true
  | _ => false

/-! ## Strict JSON decoding (`JSON.parse`)

`JSON.parse` accepts exactly the JSON grammar: whitespace is space, tab,
newline, carriage return; strings are double quoted with `\" \\ \/ \b \f \n
\r \t \uXXXX` escapes and no raw control characters; numbers are
`-?(0|[1-9][0-9]*)(\.[0-9]+)?([eE][+-]?[0-9]+)?`.  Objects keep the last
value of a duplicate key at the key's first position, as JavaScript property
assignment does.  The parser is fuelled so that every definition is
structurally recursive and kernel-executable; the top-level entry point
supplies fuel `length + 1`, which is always sufficient because every fuel
tick consumes at least one input character. -/

def isJsonWs (c : Char) : Bool :=
  c = ' ' || c = '\t' || c = '\n' || c = '\r'

def jsonSkipWs (cs : List Char) : List Char := cs.dropWhile isJsonWs

def hexVal (c : Char) : Option Nat :=
  if '0' ≤ c ∧ c ≤ '9' then some (c.toNat - 48)
  else if 'a' ≤ c ∧ c ≤ 'f' then some (c.toNat - 87)
  else if 'A' ≤ c ∧ c ≤ 'F' then some (c.toNat - 55)
  else none

def hex4 (h1 h2 h3 h4 : Char) : Option Nat :=
  match hexVal h1, hexVal h2, hexVal h3, hexVal h4 with
  | some a, some b, some c, some d => some (a * 4096 + b * 256 + c * 16 + d)
  | _, _, _, _ => none

def escChar (c : Char) : Option Char :=
  if c = '"' then some '"'
  else if c = '\\' then some '\\'
  else if c = '/' then some '/'
  else if c = 'b' then some '\x08'
  else if c = 'f' then some '\x0c'
  else if c = 'n' then some '\n'
  else if c = 'r' then some '\r'
  else if c = 't' then some '\t'
  else none

-- Decode a `\uXXXX` code.  JavaScript would keep a lone surrogate in the
-- string; Lean characters are Unicode scalars, so surrogate codes map to
-- U+FFFD.  No claim involves surrogate escapes.
def charOfCode (n : Nat) : Char :=
  if 0xd800 ≤ n ∧ n ≤ 0xdfff then '�' else Char.ofNat n

-- String body after the opening quote; returns the decoded characters and
-- the input after the closing quote.  The escape arms are flattened: a
-- `\u` escape with fewer than four following characters falls through to
-- the two-character escape arm, where `escChar 'u' = none` rejects it,
-- exactly as the nested formulation (and `JSON.parse`) would.
def parseStrTail : List Char → Option (List Char × List Char)
  | [] => none
  | '"' :: rest => some ([], rest)
  | '\\' :: 'u' :: h1 :: h2 :: h3 :: h4 :: rest3 =>
    (hex4 h1 h2 h3 h4).bind
      (fun n => (parseStrTail rest3).map (fun p => (charOfCode n :: p.1, p.2)))
  | '\\' :: e :: rest2 =>
    (escChar e).bind
      (fun ec => (parseStrTail rest2).map (fun p => (ec :: p.1, p.2)))
  | ['\\'] => none
  | c :: rest =>
    if c.toNat < 32 then none
    else (parseStrTail rest).map (fun p => (c :: p.1, p.2))

def isDigit (c : Char) : Bool := '0' ≤ c && c ≤ '9'

-- Optional fraction part `(\.[0-9]+)?`.
def parseFrac (cs : List Char) : Option (List Char × List Char) :=
  match cs with
  | c :: r =>
    if c = '.' then
      if r.takeWhile isDigit = [] then none
      else some ('.' :: r.takeWhile isDigit, r.dropWhile isDigit)
    else some ([], c :: r)
  | [] => some ([], [])

-- Exponent digits after the marker and optional sign.
def expDigits (c : Char) (sg : List Char) (r2 : List Char) :
    Option (List Char × List Char) :=
  if r2.takeWhile isDigit = [] then none
  else some (c :: (sg ++ r2.takeWhile isDigit), r2.dropWhile isDigit)

-- Optional sign of an exponent part.
def expSign (c : Char) (r : List Char) : Option (List Char × List Char) :=
  match r with
  | d :: r2 =>
    if d = '+' then expDigits c ['+'] r2
    else if d = '-' then expDigits c ['-'] r2
    else expDigits c [] (d :: r2)
  | [] => expDigits c [] []

-- Optional exponent part `([eE][+-]?[0-9]+)?`.
def parseExp (cs : List Char) : Option (List Char × List Char) :=
  match cs with
  | c :: r =>
    if c = 'e' ∨ c = 'E' then expSign c r
    else some ([], c :: r)
  | [] => some ([], [])

def parseFracExp (cs : List Char) : Option (List Char × List Char) :=
  (parseFrac cs).bind (fun fr => (parseExp fr.2).map (fun ex => (fr.1 ++ ex.1, ex.2)))

-- Integer part and what follows, `(0|[1-9][0-9]*)` then fraction/exponent.
def numIntPart (cs : List Char) : Option (List Char × List Char) :=
  match cs with
  | c :: r =>
    if c = '0' then (parseFracExp r).map (fun q => ('0' :: q.1, q.2))
    else if isDigit c then
      (parseFracExp (r.dropWhile isDigit)).map
        (fun q => (c :: (r.takeWhile isDigit ++ q.1), q.2))
    else none
  | [] => none

-- Number lexeme `-?(0|[1-9][0-9]*)(\.[0-9]+)?([eE][+-]?[0-9]+)?`.
def parseNum (cs : List Char) : Option (List Char × List Char) :=
  match cs with
  | c :: r =>
    if c = '-' then (numIntPart r).map (fun q => ('-' :: q.1, q.2))
    else numIntPart (c :: r)
  | [] => none

-- JavaScript object-property assignment for a parsed member list: a repeated
-- key keeps its first position and takes the last value.
def insertKV (fields : List (String × JVal)) (k : String) (v : JVal) :
    List (String × JVal) :=
  if fields.any (fun p => p.1 == k) then
    fields.map (fun p => if p.1 == k then (k, v) else p)
  else fields ++ [(k, v)]

-- Exact-literal matcher (used for `true`/`false`/`null` and, below, for
-- the literal parts of the salvage regexes): consumes `lit` or fails.
def matchLit : List Char → List Char → Option (List Char)
  | [], cs => some cs
  | _ :: _, [] => none
  | l :: ls, c :: cs => if c = l then matchLit ls cs else none

def litTail (lit : List Char) (v : JVal) (cs : List Char) : Option (JVal × List Char) :=
  (matchLit lit cs).map (fun r => (v, r))

-- Separator step after one object member: `,` continues with `k`, `}`
-- closes the object.
def memberSep (k : List (String × JVal) → List Char → Option (JVal × List Char))
    (acc : List (String × JVal)) (cs : List Char) : Option (JVal × List Char) :=
  match jsonSkipWs cs with
  | ',' :: cs5 => k acc (jsonSkipWs cs5)
  | '}' :: cs5 => some (.obj acc, cs5)
  | _ => none

-- Separator step after one array element.
def elemSep (k : List JVal → List Char → Option (JVal × List Char))
    (acc : List JVal) (cs : List Char) : Option (JVal × List Char) :=
  match jsonSkipWs cs with
  | ',' :: cs2 => k acc (jsonSkipWs cs2)
  | ']' :: cs2 => some (.arr acc, cs2)
  | _ => none

def expectColon (cs : List Char) : Option (List Char) :=
  match jsonSkipWs cs with
  | ':' :: r => some r
  | _ => none

-- Object members after the opening brace and leading whitespace, given a
-- parser `pv` for values.  The input must start at a key quote.
def parseMembersF (pv : List Char → Option (JVal × List Char)) :
    Nat → List (String × JVal) → List Char → Option (JVal × List Char)
  | 0, _, _ => none
  | f + 1, acc, '"' :: cs1 =>
    (parseStrTail cs1).bind (fun kp =>
      (expectColon kp.2).bind (fun cs3 =>
        (pv (jsonSkipWs cs3)).bind (fun vp =>
          memberSep (parseMembersF pv f) (insertKV acc (String.mk kp.1) vp.1) vp.2)))
  | _ + 1, _, _ => none

-- Array elements after the opening bracket and leading whitespace, given a
-- parser `pv` for values.
def parseElemsF (pv : List Char → Option (JVal × List Char)) :
    Nat → List JVal → List Char → Option (JVal × List Char)
  | 0, _, _ => none
  | f + 1, acc, cs =>
    (pv cs).bind (fun vp => elemSep (parseElemsF pv f) (acc ++ [vp.1]) vp.2)

-- Body of an object value after the brace and whitespace: empty object or
-- member list.
def objBody (pm : List (String × JVal) → List Char → Option (JVal × List Char))
    (cs : List Char) : Option (JVal × List Char) :=
  match cs with
  | '}' :: r => some (.obj [], r)
  | _ => pm [] cs

-- Body of an array value after the bracket and whitespace.
def arrBody (pe : List JVal → List Char → Option (JVal × List Char))
    (cs : List Char) : Option (JVal × List Char) :=
  match cs with
  | ']' :: r => some (.arr [], r)
  | _ => pe [] cs

def parseValue : Nat → List Char → Option (JVal × List Char)
  | 0, _ => none
  | _ + 1, [] => none
  | f + 1, c :: cs =>
    if c = '{' then objBody (parseMembersF (parseValue f) f) (jsonSkipWs cs)
    else if c = '[' then arrBody (parseElemsF (parseValue f) f) (jsonSkipWs cs)
    else if c = '"' then (parseStrTail cs).map (fun p => (.str (String.mk p.1), p.2))
    else if c = 't' then litTail ['r', 'u', 'e'] (.bool true) cs
    else if c = 'f' then litTail ['a', 'l', 's', 'e'] (.bool false) cs
    else if c = 'n' then litTail ['u', 'l', 'l'] (.null) cs
    else (parseNum (c :: cs)).map (fun p => (.num (String.mk p.1), p.2))

-- `JSON.parse` on a character list: the whole input must be one value
-- surrounded only by whitespace.  `none` models the thrown SyntaxError.
def jsonParseL (cs : List Char) : Option JVal :=
  match parseValue ((jsonSkipWs cs).length + 1) (jsonSkipWs cs) with
  | some (v, r) => if jsonSkipWs r = [] then some v else none
  | none => none

def jsonParse (s : String) : Option JVal := jsonParseL s.data

/-! ## The regular expressions of the salvage pass

Each scanner below implements the exact match semantics of one JavaScript
regex of `tryParsePartialJSON`, derived from the backtracking semantics of
the pattern.

For the quoted-value patterns
`/"key"\s*:\s*"([^"]*(?:\\.[^"]*)*)"/` (summary, headline, description) and
`/"key"\s*:\s*"([^"]*)"/` (category, significance) the derivation is: after
the literal key, `\s*` is greedy and the following `:` and `"` are not
whitespace, so those steps are deterministic; then the greedy `[^"]*`
consumes every character up to the next `"` or the end of input — including
backslashes, so after it the current character is a quote or the input is
exhausted, and an iteration of `(?:\\.[^"]*)`, which must start with a
literal backslash, can never match.  Hence the whole tail matches exactly
when a closing quote exists, the capture is the run of non-quote characters
before it, and on backtracking (no closing quote anywhere) every shorter
split fails as well, so both patterns capture "up to the next quote".  A
failed attempt restarts one position to the right, exactly as the engine
does. -/

def jsWs (c : Char) : Bool :=
  c = ' ' || c = '\t' || c = '\n' || c = '\r' || c = '\x0b' || c = '\x0c' ||
  c = ' ' || c = ' ' || (0x2000 ≤ c.toNat && c.toNat ≤ 0x200A) ||
  c = ' ' || c = ' ' || c = ' ' || c = ' ' ||
  c = '　' || c = '﻿'

-- Split at the first `"`: the characters before it and the input after it.
def splitAtQuote (cs : List Char) : Option (List Char × List Char) :=
  match cs.dropWhile (fun c => !(c == '"')) with
  | [] => none
  | _ :: after => some (cs.takeWhile (fun c => !(c == '"')), after)

-- One attempt of a quoted-value pattern at the current position.
def keyQuotedAt (key : List Char) (cs : List Char) : Option (List Char) :=
  match matchLit ('"' :: key ++ ['"']) cs with
  | some r1 =>
    match r1.dropWhile jsWs with
    | ':' :: r2 =>
      match r2.dropWhile jsWs with
      | '"' :: r3 => (splitAtQuote r3).map (fun p => p.1)
      | _ => none
    | _ => none
  | none => none

-- Leftmost match of a quoted-value pattern: try each start position.
def findKeyQuoted (key : List Char) : List Char → Option (List Char)
  | [] => none
  | c :: rest =>
    match keyQuotedAt key (c :: rest) with
    | some cap => some cap
    | none => findKeyQuoted key rest

-- One attempt of `/"key"\s*:\s*\[([\s\S]*?)(?:\]|$)/` at the current
-- position.  The lazy group grows until the alternation matches: `]` at the
-- current character, or `$` which only holds at the end of input.  So the
-- capture is everything up to the first `]`, or the whole remainder when no
-- `]` has streamed in; in particular the attempt always succeeds once the
-- key, colon and `[` have matched.
def keyArrAt (key : List Char) (cs : List Char) : Option (List Char) :=
  match matchLit ('"' :: key ++ ['"']) cs with
  | some r1 =>
    match r1.dropWhile jsWs with
    | ':' :: r2 =>
      match r2.dropWhile jsWs with
      | '[' :: r3 => some (r3.takeWhile (fun c => !(c == ']')))
      | _ => none
    | _ => none
  | none => none

def findKeyArr (key : List Char) : List Char → Option (List Char)
  | [] => none
  | c :: rest =>
    match keyArrAt key (c :: rest) with
    | some cap => some cap
    | none => findKeyArr key rest

def startsWithL : List Char → List Char → Bool
  | [], _ => true
  | _ :: _, [] => false
  | a :: as, b :: bs => a = b && startsWithL as bs

def containsSub (needle : List Char) : List Char → Bool
  | [] => needle.isEmpty
  | c :: rest => startsWithL needle (c :: rest) || containsSub needle rest

def headlineLit : List Char := "\"headline\"".data

/-- Global scan of `/\{[^}]*"headline"[^}]*\}/g`.  A single attempt at a `{`
matches exactly when the run of non-`}` characters after it contains the
literal `"headline"` and is terminated by a `}` (the whole match body is
drawn from `[^}]`, so the closing brace is the first `}` after the opening
one; which occurrence of the literal the backtracking picks does not affect
the match span).  On success the global scan resumes after the closing
brace; on failure the engine moves one position right, which can only retry
`{`s strictly inside the failed span — those see a suffix of the same
non-`}` run and the same first `}`, so they fail for the same reason, and
the next possible match starts after that `}`.  Hence the one-pass modal
scan below is equivalent: outside a span it looks for `{`; inside a span it
accumulates until the first `}` and emits the span when the literal occurs
in the accumulated run. -/
def scanEv : Option (List Char) → List Char → List (List Char)
  | _, [] => []
  | none, c :: rest =>
    if c = '{' then scanEv (some []) rest else scanEv none rest
  | some acc, c :: rest =>
    if c = '}' then
      if containsSub headlineLit acc.reverse then
        ('{' :: (acc.reverse ++ ['}'])) :: scanEv none rest
      else scanEv none rest
    else scanEv (some (c :: acc)) rest

def scanEvents (cs : List Char) : List (List Char) := scanEv none cs

/-- Global scan of `/"([^"]*(?:\\.[^"]*)*)"/g`.  As derived above, each
match is an opening quote, the run of non-quote characters after it, and the
next quote; the global scan resumes after that closing quote, and a final
unpaired quote produces no match. -/
def scanQ : Option (List Char) → List Char → List (List Char)
  | _, [] => []
  | none, c :: rest =>
    if c = '"' then scanQ (some []) rest else scanQ none rest
  | some acc, c :: rest =>
    if c = '"' then acc.reverse :: scanQ none rest else scanQ (some (c :: acc)) rest

def scanQuoted (cs : List Char) : List (List Char) := scanQ none cs

/-- `.replace(/\\"/g, '"')`: left-to-right, non-overlapping replacement of
backslash-quote pairs by a quote. -/
def unescapeQuotes : List Char → List Char
  | '\\' :: '"' :: rest => '"' :: unescapeQuotes rest
  | c :: rest => c :: unescapeQuotes rest
  | [] => []

-- JavaScript `x || d` for an optional capture already converted to a
-- string: `undefined` and the empty string are falsy.
def jsOrStr (o : Option String) (d : String) : String :=
  match o with
  | some s => if s = "" then d else s
  | none => d

/-! ## The salvage pass and `tryParsePartialJSON` (lines 24-78) -/

def summaryKey : List Char := "summary".data
def eventsKey : List Char := "events".data
def barTalkKey : List Char := "barTalk".data
def categoryKey : List Char := "category".data
def headlineKey : List Char := "headline".data
def descriptionKey : List Char := "description".data
def significanceKey : List Char := "significance".data

def summaryStr : String := "summary"
def eventsStr : String := "events"
def barTalkStr : String := "barTalk"
def headlineStr : String := "headline"
def categoryStr : String := "category"
def descriptionStr : String := "description"
def significanceStr : String := "significance"
def loadingStr : String := "Loading..."

-- `event.headline !== 'Loading...'` is false exactly when the property is
-- the string "Loading..." (strict inequality with a string literal).
def isLoadingHeadline (v : JVal) : Bool :=
  match v with
  | .str s => s == "Loading..."
  | _ => false

/-- Lines 43-59: map one complete-looking event span; strict decode of the
span alone, with the field-wise regex fallback when that throws.  The
category and significance captures are not unescaped in the source; headline
and description are. -/
def parseEventSpan (span : List Char) : JVal :=
  match jsonParseL span with
  | some v => v
  | none =>
    .obj [("category", .str (jsOrStr ((findKeyQuoted categoryKey span).map String.mk) "Other")),
          ("headline", .str (jsOrStr ((findKeyQuoted headlineKey span).map
            (fun cap => String.mk (unescapeQuotes cap))) "Loading...")),
          ("description", .str (jsOrStr ((findKeyQuoted descriptionKey span).map
            (fun cap => String.mk (unescapeQuotes cap))) "Loading...")),
          ("significance", .str (jsOrStr ((findKeyQuoted significanceKey span).map String.mk) "Medium"))]

/-- Lines 36-43: the event spans the salvage pass will map over: the capture
of the events-array pattern when it matches, scanned for complete-looking
event objects; `[]` when the pattern does not match (the `let events = []`
stands). -/
def completeEventSpans (cs : List Char) : List (List Char) :=
  match findKeyArr eventsKey cs with
  | some g => scanEvents g
  | none => []

/-- Lines 36-61: the `events` value of the salvage result. -/
def salvageEventsOf (cs : List Char) : List JVal :=
  ((completeEventSpans cs).map parseEventSpan).filter
    (fun ev => !(isLoadingHeadline (objGet ev headlineStr)))

/-- Lines 63-71: the `barTalk` value of the salvage result. -/
def salvageBarTalkOf (cs : List Char) : List JVal :=
  match findKeyArr barTalkKey cs with
  | some g => (scanQuoted g).map (fun cap => JVal.str (String.mk (unescapeQuotes cap)))
  | none => []

/-- Lines 30-73: the structural salvage pass (the body of the second `try`).
Every operation it performs is total — `String.match` returns null on
failure and each null is handled, `replace`, `slice`, `map` and `filter` do
not throw, optional chaining short-circuits the headline/description
`replace`, and the only `JSON.parse` inside is wrapped in its own
`try`/`catch` — so it is embedded as a total function and the outer
`catch { return null }` of lines 74-76 is unreachable. -/
def salvage (text : String) : JVal :=
  .obj [("summary",
          match findKeyQuoted summaryKey text.data with
          | some cap => .str (String.mk (unescapeQuotes cap))
          | none => .undef),
        ("events", .arr (salvageEventsOf text.data)),
        ("barTalk", .arr (salvageBarTalkOf text.data))]

/-- Lines 24-78: the recoverer.  Strict parse first and returned verbatim on
success; otherwise the salvage result.  `none` (JavaScript `null`) would
only be produced by the unreachable outer catch. -/
def tryParsePartialJSON (text : String) : Option JVal :=
  match jsonParse text with
  | some v => some v
  | none => some (salvage text)

/-! ## The caller's completeness check (lines 154-161) -/

-- JavaScript truthiness of the values this program can observe.  A number
-- is falsy exactly when its value is zero, i.e. every digit of its mantissa
-- is 0 (the parser admits no NaN lexeme); the exponent is irrelevant.
def numIsZero (lexeme : String) : Bool :=
  let l := match lexeme.data with
           | '-' :: r => r
           | l => l
  (l.takeWhile (fun c => !(c == 'e' || c == 'E'))).all (fun c => c == '0' || c == '.')

def truthy (v : JVal) : Bool :=
  match v with
  | .undef => false
  | .null => false
  | .bool b => b
  | .num lexeme => !(numIsZero lexeme)
  | .str s => !(s == "")
  | .arr _ => true
  | .obj _ => true

def parseFailureMsg : String := "Failed to parse complete structured response"

/-- Lines 154-161 of `handleSportsSearch`: the final parsing attempt on the
accumulated text; the result is accepted only when it is non-null and
`summary`, `events` and `barTalk` are all truthy, otherwise the hard error
is thrown. -/
def handleSportsSearchFinal (accumulatedText : String) : Except String JVal :=
  match tryParsePartialJSON accumulatedText with
  | some r =>
    if truthy (objGet r summaryStr) && truthy (objGet r eventsStr) &&
       truthy (objGet r barTalkStr) then .ok r
    else .error parseFailureMsg
  | none => .error parseFailureMsg

/-! ## The target schema (the TypeScript types of lines 6-21) -/

def teamsStr : String := "teams"
def dateStr : String := "date"
def sourceStr : String := "source"
def linksStr : String := "links"

def validCategory (s : String) : Bool :=
  s == "NFL" || s == "College Football" || s == "NBA" || s == "MLB" ||
  s == "NHL" || s == "Tennis" || s == "Soccer" || s == "Other"

def validSignificance (s : String) : Bool :=
  s == "High" || s == "Medium" || s == "Low"

def isArrOfStr (v : JVal) : Bool :=
  match v with
  | .arr xs => xs.all isStrVal
  | _ => false

def optStrField (v : JVal) : Bool :=
  match v with
  | .undef => true
  | .str _ => true
  | _ => false

def optStrArrField (v : JVal) : Bool :=
  match v with
  | .undef => true
  | w => isArrOfStr w

def matchesEvent (v : JVal) : Bool :=
  match v with
  | .obj _ =>
    (match objGet v categoryStr with | .str s => validCategory s | _ => false) &&
    isStrVal (objGet v headlineStr) && isStrVal (objGet v descriptionStr) &&
    (match objGet v significanceStr with | .str s => validSignificance s | _ => false) &&
    optStrArrField (objGet v teamsStr) && optStrField (objGet v dateStr) &&
    optStrField (objGet v sourceStr) && optStrArrField (objGet v linksStr)
  | _ => false

def matchesSchema (v : JVal) : Bool :=
  match v with
  | .obj _ =>
    isStrVal (objGet v summaryStr) &&
    (match objGet v eventsStr with | .arr xs => xs.all matchesEvent | _ => false) &&
    isArrOfStr (objGet v barTalkStr)
  | _ => false

/-! ## Schema documents and their serialization

These definitions exist to state the prefix claims of the specification:
a `NewsDoc` is an abstract schema-conforming document, `serializeNews` its
canonical JSON serialization (`JSON.stringify` of the corresponding object:
no extra whitespace, fields in the order of the prompt's format, strings
escaped), and `docToJVal` the JavaScript value `JSON.parse` yields back. -/

def hexDigit (n : Nat) : Char :=
  if n < 10 then Char.ofNat (48 + n) else Char.ofNat (87 + n)

-- JSON string escaping of one character, as `JSON.stringify` performs it.
def escBody (c : Char) : List Char :=
  if c = '"' then ['\\', '"']
  else if c = '\\' then ['\\', '\\']
  else if c = '\n' then ['\\', 'n']
  else if c = '\r' then ['\\', 'r']
  else if c = '\t' then ['\\', 't']
  else if c = '\x08' then ['\\', 'b']
  else if c = '\x0c' then ['\\', 'f']
  else if c.toNat < 32 then
    ['\\', 'u', '0', '0', hexDigit (c.toNat / 16), hexDigit (c.toNat % 16)]
  else [c]

def escListL (l : List Char) : List Char :=
  l.foldr (fun c acc => escBody c ++ acc) []

def serStrL (s : String) : List Char :=
  '"' :: (escListL s.data ++ ['"'])

def serMembersL : List (String × List Char) → List Char
  | [] => []
  | [(k, v)] => serStrL k ++ ':' :: v
  | (k, v) :: rest => serStrL k ++ ':' :: (v ++ ',' :: serMembersL rest)

def serElemsL : List (List Char) → List Char
  | [] => []
  | [v] => v
  | v :: rest => v ++ ',' :: serElemsL rest

def serObjL (ms : List (String × List Char)) : List Char :=
  '{' :: (serMembersL ms ++ ['}'])

def serArrL (es : List (List Char)) : List Char :=
  '[' :: (serElemsL es ++ [']'])

structure EventRec where
  category : String
  headline : String
  description : String
  significance : String
  teams : Option (List String)
  date : Option String
  source : Option String
  links : Option (List String)

structure NewsDoc where
  summary : String
  events : List EventRec
  barTalk : List String

-- Member triples of one serialized event: key, serialized value text,
-- decoded value.  Optional fields are emitted only when present.
def eventMembers (E : EventRec) : List (String × List Char × JVal) :=
  [("category", serStrL E.category, .str E.category),
   ("headline", serStrL E.headline, .str E.headline),
   ("description", serStrL E.description, .str E.description),
   ("significance", serStrL E.significance, .str E.significance)] ++
  (match E.teams with
   | some ts => [("teams", serArrL (ts.map serStrL), .arr (ts.map JVal.str))]
   | none => []) ++
  (match E.date with
   | some d => [("date", serStrL d, .str d)]
   | none => []) ++
  (match E.source with
   | some s => [("source", serStrL s, .str s)]
   | none => []) ++
  (match E.links with
   | some ls => [("links", serArrL (ls.map serStrL), .arr (ls.map JVal.str))]
   | none => [])

def serEventL (E : EventRec) : List Char :=
  serObjL ((eventMembers E).map (fun m => (m.1, m.2.1)))

def eventToJVal (E : EventRec) : JVal :=
  .obj ((eventMembers E).map (fun m => (m.1, m.2.2)))

def docMembers (D : NewsDoc) : List (String × List Char × JVal) :=
  [("summary", serStrL D.summary, .str D.summary),
   ("events", serArrL (D.events.map serEventL), .arr (D.events.map eventToJVal)),
   ("barTalk", serArrL (D.barTalk.map serStrL), .arr (D.barTalk.map JVal.str))]

def serializeNewsL (D : NewsDoc) : List Char :=
  serObjL ((docMembers D).map (fun m => (m.1, m.2.1)))

def serializeNews (D : NewsDoc) : String := String.mk (serializeNewsL D)

def docToJVal (D : NewsDoc) : JVal :=
  .obj ((docMembers D).map (fun m => (m.1, m.2.2)))

-- A character whose serialization is itself: not a quote, not a backslash,
-- not a control character.
def plainChar (c : Char) : Bool :=
  !(c == '"') && !(c == '\\') && !(c.toNat < 32)

def plainString (s : String) : Bool := s.data.all plainChar

-- The prefix of `serializeNews D` through the closing quote of the summary
-- field, for a document with a plain summary.
def summaryFieldPrefix (D : NewsDoc) : String :=
  "\x7b\"summary\":\"" ++ D.summary ++ "\""

/-! ## Concrete inputs used by witnesses and counterexamples -/

def c1Input : String :=
  "\x7b\"summary\": \"NFL week wraps up\", \"events\": [\x7b\"headline\":\"Team A wins\",\"category\":\"NFL\",\"description\":\"desc\",\"significance\":\"High\"\x7d], \"barTalk\": [\"Wow\"]\x7d"

def c2Input : String :=
  "\x7b\"summary\":\"x\",\"events\":[\x7b\"headline\":\"Loading...\",\"category\":\"NFL\",\"description\":\"d\",\"significance\":\"Low\"\x7d],\"barTalk\":[]\x7d"

def c2SalvageInput : String :=
  "\x7b\"summary\":\"x\",\"events\":[\x7b\"headline\":\"A\",\"category\":\"NFL\",\"description\":\"d\",\"significance\":\"Low\"\x7d"

def c3Doc : NewsDoc := ⟨"a\\b", [], []⟩

def c3CutInput : String := "\x7b\"summary\":\"a\\\\b\""

def c3CutTail : String := ",\"events\":[],\"barTalk\":[]\x7d"

def c3WitnessDoc : NewsDoc := ⟨"ok", [], ["w"]⟩

def c3WitnessQ : String := ",\"events\":["

def c3WitnessT : String := "],\"barTalk\":[\"w\"]\x7d"

def c4Input : String := "\x7b\"summary\":\"x\",\"events\":[\x7b\"category\":\"NFL\",\"headl"

def c5Input : String := "\x7b\"summary\":\"x\",\"events\":[]\x7d"

def c7Span : List Char :=
  "\x7b\"headline\":\"A\",\"significance\":\"High\" oops\x7d".data

def c8Input : String := "\x7b\"summary\":\"x\",\"barTalk\":[\"a\",\"b\\\"c\""

def c8Group : List Char := "\"a\",\"b\\\"c\"".data

-- Values used by witnesses: the strict decodings of the concrete inputs.
def c1Val : JVal :=
  .obj [("summary", .str "NFL week wraps up"),
        ("events", .arr [.obj [("headline", .str "Team A wins"),
                               ("category", .str "NFL"),
                               ("description", .str "desc"),
                               ("significance", .str "High")]]),
        ("barTalk", .arr [.str "Wow"])]

def c2Val : JVal :=
  .obj [("summary", .str "x"),
        ("events", .arr [.obj [("headline", .str "Loading..."),
                               ("category", .str "NFL"),
                               ("description", .str "d"),
                               ("significance", .str "Low")]]),
        ("barTalk", .arr [])]

def c2SalvageEvent : JVal :=
  .obj [("headline", .str "A"), ("category", .str "NFL"),
        ("description", .str "d"), ("significance", .str "Low")]

def c5Val : JVal :=
  .obj [("summary", .str "x"), ("events", .arr [])]

/-! # Theorems -/

/-! ## Basic lemmas about the recoverer's structure -/

theorem tryParse_fast {s : String} {v : JVal} (h : jsonParse s = some v) :
    tryParsePartialJSON s = some v := by
  simp [tryParsePartialJSON, h]

theorem tryParse_slow {s : String} (h : jsonParse s = none) :
    tryParsePartialJSON s = some (salvage s) := by
  simp [tryParsePartialJSON, h]

theorem objGet_salvage_events (s : String) :
    objGet (salvage s) eventsStr = .arr (salvageEventsOf s.data) := rfl

theorem objGet_salvage_barTalk (s : String) :
    objGet (salvage s) barTalkStr = .arr (salvageBarTalkOf s.data) := rfl

theorem objGet_salvage_summary (s : String) :
    objGet (salvage s) summaryStr =
      (match findKeyQuoted summaryKey s.data with
       | some cap => .str (String.mk (unescapeQuotes cap))
       | none => .undef) := rfl

theorem truthy_ne_undef {v : JVal} (h : truthy v = true) : v ≠ .undef := by
  cases v <;> simp_all [truthy]

theorem isLoading_false_ne {v : JVal} (h : isLoadingHeadline v = false) :
    v ≠ JVal.str loadingStr := by
  cases v <;> simp_all [isLoadingHeadline, loadingStr]

-- Shared by the filtering claims: every event surviving the salvage pass
-- has a headline different from the sentinel, by construction of the filter.
theorem salvageEvents_headline_ne {cs : List Char} {ev : JVal}
    (h : ev ∈ salvageEventsOf cs) :
    objGet ev headlineStr ≠ JVal.str loadingStr := by
  have := List.of_mem_filter h
  simp only [Bool.not_eq_true'] at this
  exact isLoading_false_ne this

/-! ## Claim C1 -/

/-- C1: for every input string that strict-decodes as one complete JSON
document matching the target schema, `tryParsePartialJSON` returns exactly
the strict-decoded document verbatim — the fast path performs no filtering,
defaulting, or modification of any field. -/
theorem claim_C1_fast_path_verbatim (s : String) (v : JVal)
    (hparse : jsonParse s = some v) (_hschema : matchesSchema v = true) :
    tryParsePartialJSON s = some v :=
  tryParse_fast hparse

theorem claim_C1_fast_path_verbatim_witness :
    matchesSchema c1Val = true ∧ tryParsePartialJSON c1Input = some c1Val :=
  ⟨by rfl, claim_C1_fast_path_verbatim c1Input c1Val (by rfl) (by rfl)⟩

/-! ## Claim C2 -/

/-- C2 counterexample: on an input that strict-decodes as complete JSON
containing an event whose headline is the sentinel "Loading...", the
recoverer returns that record unfiltered — the first event of the returned
`events` still carries the sentinel headline, contradicting the claim that
such records are filtered out of every non-null result. -/
theorem claim_C2_counterexample :
    tryParsePartialJSON c2Input = some c2Val ∧
    objGet (arrFirst (objGet c2Val eventsStr)) headlineStr = JVal.str loadingStr :=
  ⟨by rfl, by rfl⟩

/-- C2 amended: the sentinel filter applies on the salvage path only — for
every input on which strict JSON decoding fails, every event record in the
returned `events` has a headline different from "Loading...". -/
theorem claim_C2_salvage_filters_loading (s : String) (r ev : JVal)
    (hfail : jsonParse s = none) (hres : tryParsePartialJSON s = some r)
    (hmem : ev ∈ arrElems (objGet r eventsStr)) :
    objGet ev headlineStr ≠ JVal.str loadingStr := by
  rw [tryParse_slow hfail] at hres
  cases hres
  rw [objGet_salvage_events] at hmem
  exact salvageEvents_headline_ne hmem

theorem claim_C2_salvage_filters_loading_witness :
    objGet c2SalvageEvent headlineStr ≠ JVal.str loadingStr :=
  claim_C2_salvage_filters_loading c2SalvageInput (salvage c2SalvageInput)
    c2SalvageEvent (by rfl) (by rfl) (List.Mem.head _)

/-! ## Claim C4 -/

/-- C4: when strict decoding fails and the buffer yields no syntactically
complete event-object span (no balanced brace span containing a "headline"
key inside the events-array capture), the recoverer still binds `events` to
the empty sequence, never null or absent. -/
theorem claim_C4_no_spans_empty_events (s : String) (r : JVal)
    (hfail : jsonParse s = none) (hspans : completeEventSpans s.data = [])
    (hres : tryParsePartialJSON s = some r) :
    objGet r eventsStr = JVal.arr [] := by
  rw [tryParse_slow hfail] at hres
  cases hres
  rw [objGet_salvage_events]
  simp [salvageEventsOf, hspans]

theorem claim_C4_no_spans_empty_events_witness :
    objGet (salvage c4Input) eventsStr = JVal.arr [] :=
  claim_C4_no_spans_empty_events c4Input (salvage c4Input) (by rfl) (by rfl) (by rfl)

/-! ## Claim C5 -/

/-- C5: the final completeness check accepts only when `summary`, `events`
and `barTalk` are all present (an accepted result has none of them
undefined); when any of the three is absent the hard failure "Failed to
parse complete structured response" is raised; in particular a final buffer
that is valid JSON but entirely missing the `barTalk` key produces this hard
error. -/
theorem claim_C5_final_completeness_check :
    (∀ s r, handleSportsSearchFinal s = .ok r →
      objGet r summaryStr ≠ .undef ∧ objGet r eventsStr ≠ .undef ∧
      objGet r barTalkStr ≠ .undef) ∧
    (∀ s r, tryParsePartialJSON s = some r →
      (objGet r summaryStr = .undef ∨ objGet r eventsStr = .undef ∨
       objGet r barTalkStr = .undef) →
      handleSportsSearchFinal s = .error parseFailureMsg) ∧
    (∀ s v, jsonParse s = some v → objGet v barTalkStr = .undef →
      handleSportsSearchFinal s = .error parseFailureMsg) := by
  refine ⟨?_, ?_, ?_⟩
  · intro s r h
    unfold handleSportsSearchFinal at h
    split at h
    · split at h
      · cases h
        rename_i hc
        simp only [Bool.and_eq_true] at hc
        exact ⟨truthy_ne_undef hc.1.1, truthy_ne_undef hc.1.2, truthy_ne_undef hc.2⟩
      · exact absurd h (by simp)
    · exact absurd h (by simp)
  · intro s r htp hun
    have hfalse : (truthy (objGet r summaryStr) && truthy (objGet r eventsStr) &&
        truthy (objGet r barTalkStr)) = false := by
      rcases hun with h | h | h <;> rw [h] <;> simp [truthy]
    simp only [handleSportsSearchFinal, htp, hfalse]
    simp
  · intro s v hp hun
    have hfalse : (truthy (objGet v summaryStr) && truthy (objGet v eventsStr) &&
        truthy (objGet v barTalkStr)) = false := by
      rw [hun]; simp [truthy]
    simp only [handleSportsSearchFinal, tryParse_fast hp, hfalse]
    simp

theorem claim_C5_final_completeness_check_witness :
    handleSportsSearchFinal c5Input = .error parseFailureMsg :=
  claim_C5_final_completeness_check.2.2 c5Input c5Val (by rfl) (by rfl)

/-! ## Claim C6 -/

/-- C6: the recoverer never propagates an exception past its boundary: when
strict decoding fails it falls through to the structural salvage and returns
its (total) result rather than throwing; the salvage pass itself cannot
throw — every operation in it is total and its only inner `JSON.parse` is
guarded — so the null-returning catch branch never fires on this path. -/
theorem claim_C6_no_exception_propagation (s : String)
    (hfail : jsonParse s = none) :
    tryParsePartialJSON s = some (salvage s) :=
  tryParse_slow hfail

theorem claim_C6_no_exception_propagation_witness :
    tryParsePartialJSON ("\x7b") = some (salvage ("\x7b")) :=
  claim_C6_no_exception_propagation ("\x7b") (by rfl)

/-! ## Claim C7 -/

/-- C7: when a complete-looking event span fails its own strict decode, the
field-wise fallback defaults a missing category to "Other", a missing
headline to "Loading...", a missing description to "Loading..." and a
missing significance to "Medium"; and every record whose headline remains
"Loading..." is discarded from the salvage result's events. -/
theorem claim_C7_fallback_defaults :
    (∀ span, jsonParseL span = none →
      ((findKeyQuoted categoryKey span = none →
        objGet (parseEventSpan span) categoryStr = .str ("Other")) ∧
       (findKeyQuoted headlineKey span = none →
        objGet (parseEventSpan span) headlineStr = .str loadingStr) ∧
       (findKeyQuoted descriptionKey span = none →
        objGet (parseEventSpan span) descriptionStr = .str loadingStr) ∧
       (findKeyQuoted significanceKey span = none →
        objGet (parseEventSpan span) significanceStr = .str ("Medium")))) ∧
    (∀ cs ev, ev ∈ salvageEventsOf cs →
      objGet ev headlineStr ≠ JVal.str loadingStr) := by
  constructor
  · intro span hfail
    refine ⟨?_, ?_, ?_, ?_⟩ <;> intro hnone <;>
      simp [parseEventSpan, hfail, hnone, jsOrStr, objGet, List.find?,
        categoryStr, headlineStr, descriptionStr, significanceStr, loadingStr]
  · intro cs ev h
    exact salvageEvents_headline_ne h

theorem claim_C7_fallback_defaults_witness :
    jsonParseL c7Span = none ∧
    objGet (parseEventSpan c7Span) categoryStr = .str ("Other") ∧
    objGet (parseEventSpan c7Span) descriptionStr = .str loadingStr :=
  ⟨by rfl, (claim_C7_fallback_defaults.1 c7Span (by rfl)).1 (by rfl),
    (claim_C7_fallback_defaults.1 c7Span (by rfl)).2.2.1 (by rfl)⟩

/-! ## Claim C9 -/

/-- C9: the recoverer is total and never returns null — the salvage path
cannot throw, so the catch branch is unreachable — and on the empty string
it returns a result with summary absent, events the empty sequence and
barTalk the empty sequence. -/
theorem claim_C9_total_nonnull :
    (∀ s, (tryParsePartialJSON s).isSome = true) ∧
    tryParsePartialJSON ("") =
      some (JVal.obj [("summary", .undef), ("events", .arr []), ("barTalk", .arr [])]) := by
  constructor
  · intro s
    cases h : jsonParse s with
    | none => rw [tryParse_slow h]; rfl
    | some v => rw [tryParse_fast h]; rfl
  · rfl

/-! ## Claim C10 -/

/-- C10: on every input where strict decoding fails, the salvage result
binds `events` and `barTalk` to (possibly empty) arrays even when those keys
never appeared in the buffer, and `summary` — the only field that can be
absent — is either undefined or a string. -/
theorem claim_C10_salvage_shape (s : String) (r : JVal)
    (hfail : jsonParse s = none) (hres : tryParsePartialJSON s = some r) :
    isArrVal (objGet r eventsStr) = true ∧ isArrVal (objGet r barTalkStr) = true ∧
    (objGet r summaryStr = .undef ∨ isStrVal (objGet r summaryStr) = true) := by
  rw [tryParse_slow hfail] at hres
  cases hres
  refine ⟨by rw [objGet_salvage_events]; rfl, by rw [objGet_salvage_barTalk]; rfl, ?_⟩
  rw [objGet_salvage_summary]
  cases findKeyQuoted summaryKey s.data with
  | none => exact Or.inl rfl
  | some cap => exact Or.inr rfl

theorem claim_C10_salvage_shape_witness :
    isArrVal (objGet (salvage ("")) eventsStr) = true ∧
    isArrVal (objGet (salvage ("")) barTalkStr) = true ∧
    (objGet (salvage ("")) summaryStr = .undef ∨
     isStrVal (objGet (salvage ("")) summaryStr) = true) :=
  claim_C10_salvage_shape ("") (salvage ("")) (by rfl) (by rfl)

/-! ## Claim C8 -/

theorem keyArrAt_no_rbracket {key cs g} (h : keyArrAt key cs = some g) :
    ']' ∉ g := by
  unfold keyArrAt at h
  split at h
  · split at h
    · split at h
      · cases h
        intro hmem
        have := List.mem_takeWhile_imp hmem
        simp at this
      · exact Option.noConfusion h
    · exact Option.noConfusion h
  · exact Option.noConfusion h

theorem findKeyArr_no_rbracket {key g} :
    ∀ {cs}, findKeyArr key cs = some g → ']' ∉ g := by
  intro cs
  induction cs with
  | nil => intro h; cases h
  | cons c rest ih =>
    intro h
    unfold findKeyArr at h
    cases ha : keyArrAt key (c :: rest) with
    | some cap => rw [ha] at h; cases h; exact keyArrAt_no_rbracket ha
    | none => rw [ha] at h; exact ih h

theorem scanQ_skip {a : List Char} (ha : '"' ∉ a) (l : List Char) :
    scanQ none (a ++ l) = scanQ none l := by
  induction a with
  | nil => rfl
  | cons c a' ih =>
    have hc : ¬(c = '"') := fun hc => ha (hc ▸ List.mem_cons_self c a')
    have ha' : '"' ∉ a' := fun hm => ha (List.mem_cons_of_mem c hm)
    simpa [scanQ, hc] using ih ha' 

theorem scanQ_acc {b : List Char} (hb : '"' ∉ b) (acc rest : List Char) :
    scanQ (some acc) (b ++ ('"' :: rest)) = (acc.reverse ++ b) :: scanQ none rest := by
  induction b generalizing acc with
  | nil => simp [scanQ]
  | cons c b' ih =>
    have hc : ¬(c = '"') := fun hc => hb (hc ▸ List.mem_cons_self c b')
    have hb' : '"' ∉ b' := fun hm => hb (List.mem_cons_of_mem c hm)
    calc scanQ (some acc) ((c :: b') ++ ('"' :: rest))
        = scanQ (some (c :: acc)) (b' ++ ('"' :: rest)) := by simp [scanQ, hc]
      _ = ((c :: acc).reverse ++ b') :: scanQ none rest := ih hb' (c :: acc)
      _ = (acc.reverse ++ (c :: b')) :: scanQ none rest := by simp

/-- C8: on the salvage path, whenever the `barTalk` key followed by `[` is
present, the returned barTalk sequence is exactly the quoted strings of the
captured array substring, in encounter order, with escaped quotes unescaped;
the capture stops before any `]` (it extends to the closing bracket, or to
the end of the buffer when none has streamed in), and each quoted string of
the substring contributes one element in order. -/
theorem claim_C8_barTalk_extraction :
    (∀ s g r, jsonParse s = none → findKeyArr barTalkKey s.data = some g →
      tryParsePartialJSON s = some r →
      objGet r barTalkStr =
        JVal.arr ((scanQuoted g).map (fun cap => JVal.str (String.mk (unescapeQuotes cap)))) ∧
      ']' ∉ g) ∧
    (∀ a b rest, '"' ∉ a → '"' ∉ b →
      scanQuoted (a ++ ('"' :: (b ++ ('"' :: rest)))) = b :: scanQuoted rest) := by
  constructor
  · intro s g r hfail hg hres
    rw [tryParse_slow hfail] at hres
    cases hres
    refine ⟨?_, findKeyArr_no_rbracket hg⟩
    rw [objGet_salvage_barTalk]
    simp [salvageBarTalkOf, hg]
  · intro a b rest ha hb
    show scanQ none (a ++ ('"' :: (b ++ ('"' :: rest)))) = b :: scanQ none rest
    rw [scanQ_skip ha]
    show scanQ (some []) (b ++ ('"' :: rest)) = b :: scanQ none rest
    rw [scanQ_acc hb]
    rfl

theorem claim_C8_barTalk_extraction_witness :
    objGet (salvage c8Input) barTalkStr =
      JVal.arr ((scanQuoted c8Group).map (fun cap => JVal.str (String.mk (unescapeQuotes cap)))) ∧
    ']' ∉ c8Group :=
  claim_C8_barTalk_extraction.1 c8Input c8Group (salvage c8Input)
    (by rfl) (by rfl) (by rfl)


/-! ## Claim C3: parser metatheory

The prefix claim needs three facts about the strict parser: fuel
monotonicity, stability of a successful parse under appending further input
(for inputs headed by a closing-delimited construct), and that the canonical
serialization of a document parses back to exactly that document.  Together
they rule out the fast path on every proper prefix of a serialization. -/

theorem stringMk_data (s : String) : String.mk s.data = s := by cases s; rfl

theorem data_stringMk (l : List Char) : (String.mk l).data = l := rfl

theorem dropWhile_append_cons {p : Char → Bool} :
    ∀ {l : List Char} {c : Char} {r : List Char}, l.dropWhile p = c :: r →
      ∀ t, (l ++ t).dropWhile p = c :: (r ++ t) := by
  intro l
  induction l with
  | nil => intro c r h t; simp at h
  | cons x xs ih =>
    intro c r h t
    rw [List.dropWhile_cons] at h
    by_cases hx : p x = true
    · rw [if_pos hx] at h
      rw [List.cons_append, List.dropWhile_cons, if_pos hx]
      exact ih h t
    · rw [if_neg hx] at h
      cases h
      rw [List.cons_append, List.dropWhile_cons, if_neg hx]

theorem takeWhile_append_stop {p : Char → Bool} :
    ∀ {l : List Char} {c : Char} {r : List Char}, l.dropWhile p = c :: r →
      ∀ t, (l ++ t).takeWhile p = l.takeWhile p := by
  intro l
  induction l with
  | nil => intro c r h t; simp at h
  | cons x xs ih =>
    intro c r h t
    rw [List.dropWhile_cons] at h
    by_cases hx : p x = true
    · rw [if_pos hx] at h
      rw [List.cons_append, List.takeWhile_cons, if_pos hx,
        List.takeWhile_cons, if_pos hx, ih h t]
    · rw [List.cons_append, List.takeWhile_cons, if_neg hx, List.takeWhile_cons, if_neg hx]

theorem skipWs_cons_not {c : Char} (h : isJsonWs c = false) (cs : List Char) :
    jsonSkipWs (c :: cs) = c :: cs := by
  simp [jsonSkipWs, List.dropWhile_cons, h]

theorem skipWs_append_cons {l : List Char} {c : Char} {r : List Char}
    (h : jsonSkipWs l = c :: r) (t : List Char) :
    jsonSkipWs (l ++ t) = c :: (r ++ t) :=
  dropWhile_append_cons h t

theorem value_fuel_nil : ∀ f, parseValue f [] = none := by
  intro f; cases f <;> rfl

theorem parseStrTail_ext :
    ∀ {cs : List Char} {b r}, parseStrTail cs = some (b, r) →
      ∀ t, parseStrTail (cs ++ t) = some (b, r ++ t) := by
  intro cs
  induction cs using parseStrTail.induct with
  | case1 => intro b r h t; exact Option.noConfusion h
  | case2 rest =>
    intro b r h t
    simp only [parseStrTail, Option.some.injEq, Prod.mk.injEq] at h
    obtain ⟨rfl, rfl⟩ := h
    simp only [List.cons_append, parseStrTail]
    rfl
  | case3 h1 h2 h3 h4 rest3 ih =>
    intro b r h t
    simp only [parseStrTail] at h
    cases hh : hex4 h1 h2 h3 h4 with
    | none => simp [hh] at h
    | some n =>
      simp only [hh, Option.some_bind] at h
      cases hp : parseStrTail rest3 with
      | none => simp [hp] at h
      | some p =>
        simp only [hp, Option.map_some', Option.some.injEq, Prod.mk.injEq] at h
        obtain ⟨rfl, rfl⟩ := h
        simp only [List.cons_append, parseStrTail, hh, Option.some_bind, List.append_eq,
          ih hp t, Option.map_some']
  | case4 e rest2 hne ih =>
    intro b r h t
    simp only [parseStrTail] at h
    cases he : escChar e with
    | none => simp [he] at h
    | some ec =>
      simp only [he, Option.some_bind] at h
      cases hp : parseStrTail rest2 with
      | none => simp [hp] at h
      | some p =>
        simp only [hp, Option.map_some', Option.some.injEq, Prod.mk.injEq] at h
        obtain ⟨rfl, rfl⟩ := h
        have he2 : e ≠ 'u' := by
          intro hu; subst hu; simp [escChar] at he
        have hcond : ∀ (h1 h2 h3 h4 : Char) (rest3 : List Char),
            e = 'u' → rest2 ++ t = h1 :: h2 :: h3 :: h4 :: rest3 → False :=
          fun _ _ _ _ _ heu _ => he2 heu
        simp only [List.cons_append, parseStrTail, hcond, he, Option.some_bind,
          List.append_eq, ih hp t, Option.map_some']
  | case5 => intro b r h t; exact Option.noConfusion h
  | case6 c rest hq hhex hesc hnil h32 =>
    intro b r h t
    simp only [parseStrTail] at h
    rw [if_pos h32] at h
    exact Option.noConfusion h
  | case7 c rest hq hhex hesc hnil h32 ih =>
    intro b r h t
    simp only [parseStrTail] at h
    rw [if_neg h32] at h
    cases hp : parseStrTail rest with
    | none => simp [hp] at h
    | some p =>
      simp only [hp, Option.map_some', Option.some.injEq, Prod.mk.injEq] at h
      obtain ⟨rfl, rfl⟩ := h
      have hc : c ≠ '\\' := by
        intro hcc
        cases rest with
        | nil => exact hnil hcc rfl
        | cons e r2 => exact hesc e r2 hcc rfl
      have hhex' : ∀ (h1 h2 h3 h4 : Char) (rest3 : List Char),
          c = '\\' → rest ++ t = 'u' :: h1 :: h2 :: h3 :: h4 :: rest3 → False :=
        fun _ _ _ _ _ hcc _ => hc hcc
      have hesc' : ∀ (e : Char) (rest2 : List Char),
          c = '\\' → rest ++ t = e :: rest2 → False :=
        fun _ _ hcc _ => hc hcc
      have hnil' : c = '\\' → rest ++ t = [] → False := fun hcc _ => hc hcc
      simp only [List.cons_append, parseStrTail, hq, hhex', hesc', hnil', if_neg h32,
        List.append_eq, ih hp t, Option.map_some']

theorem expDigits_ext {c sg r2 lex rest} (h : expDigits c sg r2 = some (lex, rest))
    (hne : rest ≠ []) (t : List Char) :
    expDigits c sg (r2 ++ t) = some (lex, rest ++ t) := by
  unfold expDigits at h ⊢
  by_cases htw : r2.takeWhile isDigit = []
  · rw [if_pos htw] at h; exact Option.noConfusion h
  · rw [if_neg htw] at h
    simp only [Option.some.injEq, Prod.mk.injEq] at h
    obtain ⟨rfl, rfl⟩ := h
    cases hdw : r2.dropWhile isDigit with
    | nil => exact absurd hdw hne
    | cons d r' =>
      rw [takeWhile_append_stop hdw, dropWhile_append_cons hdw, if_neg htw]
      simp

theorem expSign_ext {c r lex rest} (h : expSign c r = some (lex, rest))
    (hne : rest ≠ []) (t : List Char) :
    expSign c (r ++ t) = some (lex, rest ++ t) := by
  cases r with
  | nil =>
    exfalso
    simp [expSign, expDigits] at h
  | cons d r2 =>
    simp only [expSign] at h
    rw [List.cons_append]
    simp only [expSign]
    by_cases hp : d = '+'
    · rw [if_pos hp] at h
      rw [if_pos hp]
      exact expDigits_ext h hne t
    · by_cases hm : d = '-'
      · rw [if_neg hp, if_pos hm] at h
        rw [if_neg hp, if_pos hm]
        exact expDigits_ext h hne t
      · rw [if_neg hp, if_neg hm] at h
        rw [if_neg hp, if_neg hm, ← List.cons_append]
        exact expDigits_ext h hne t

theorem parseExp_ext {cs lex rest} (h : parseExp cs = some (lex, rest))
    (hne : rest ≠ []) (t : List Char) :
    parseExp (cs ++ t) = some (lex, rest ++ t) := by
  cases cs with
  | nil =>
    exfalso
    simp only [parseExp, Option.some.injEq, Prod.mk.injEq] at h
    exact hne h.2.symm
  | cons c r =>
    simp only [parseExp] at h
    rw [List.cons_append]
    simp only [parseExp]
    by_cases he : c = 'e' ∨ c = 'E'
    · rw [if_pos he] at h
      rw [if_pos he]
      exact expSign_ext h hne t
    · rw [if_neg he] at h
      simp only [Option.some.injEq, Prod.mk.injEq] at h
      obtain ⟨rfl, rfl⟩ := h
      rw [if_neg he]
      rfl

theorem parseFrac_ext {cs lex rest} (h : parseFrac cs = some (lex, rest))
    (hne : rest ≠ []) (t : List Char) :
    parseFrac (cs ++ t) = some (lex, rest ++ t) := by
  cases cs with
  | nil =>
    exfalso
    simp only [parseFrac, Option.some.injEq, Prod.mk.injEq] at h
    exact hne h.2.symm
  | cons c r =>
    simp only [parseFrac] at h
    rw [List.cons_append]
    simp only [parseFrac]
    by_cases hc : c = '.'
    · rw [if_pos hc] at h
      by_cases htw : r.takeWhile isDigit = []
      · rw [if_pos htw] at h; exact Option.noConfusion h
      · rw [if_neg htw] at h
        simp only [Option.some.injEq, Prod.mk.injEq] at h
        obtain ⟨rfl, rfl⟩ := h
        cases hdw : r.dropWhile isDigit with
        | nil => exact absurd hdw hne
        | cons d r' =>
          rw [if_pos hc, takeWhile_append_stop hdw, dropWhile_append_cons hdw,
            if_neg htw]
          simp
    · rw [if_neg hc] at h
      simp only [Option.some.injEq, Prod.mk.injEq] at h
      obtain ⟨rfl, rfl⟩ := h
      rw [if_neg hc]
      rfl

theorem parseFracExp_ext {cs lex rest} (h : parseFracExp cs = some (lex, rest))
    (hne : rest ≠ []) (t : List Char) :
    parseFracExp (cs ++ t) = some (lex, rest ++ t) := by
  unfold parseFracExp at h ⊢
  cases hf : parseFrac cs with
  | none => rw [hf] at h; exact Option.noConfusion h
  | some fr =>
    rw [hf] at h
    simp only [Option.some_bind] at h
    cases he : parseExp fr.2 with
    | none => rw [he] at h; exact Option.noConfusion h
    | some ex =>
      rw [he] at h
      simp only [Option.map_some', Option.some.injEq, Prod.mk.injEq] at h
      obtain ⟨rfl, rfl⟩ := h
      have hfr2 : fr.2 ≠ [] := by
        intro hnil
        rw [hnil] at he
        simp only [parseExp, Option.some.injEq, Prod.mk.injEq] at he
        cases he
        exact hne rfl
      rw [parseFrac_ext hf hfr2 t]
      simp only [Option.some_bind]
      rw [parseExp_ext he hne t]
      simp

theorem numIntPart_ext {cs lex rest} (h : numIntPart cs = some (lex, rest))
    (hne : rest ≠ []) (t : List Char) :
    numIntPart (cs ++ t) = some (lex, rest ++ t) := by
  cases cs with
  | nil => exact Option.noConfusion h
  | cons c r =>
    simp only [numIntPart] at h
    rw [List.cons_append]
    simp only [numIntPart]
    by_cases h0 : c = '0'
    · rw [if_pos h0] at h
      cases hq : parseFracExp r with
      | none => rw [hq] at h; exact Option.noConfusion h
      | some q =>
        rw [hq] at h
        simp only [Option.map_some', Option.some.injEq, Prod.mk.injEq] at h
        obtain ⟨rfl, rfl⟩ := h
        rw [if_pos h0, parseFracExp_ext hq hne t]
        rfl
    · by_cases hd : isDigit c = true
      · rw [if_neg h0, if_pos hd] at h
        cases hq : parseFracExp (r.dropWhile isDigit) with
        | none => rw [hq] at h; exact Option.noConfusion h
        | some q =>
          rw [hq] at h
          simp only [Option.map_some', Option.some.injEq, Prod.mk.injEq] at h
          obtain ⟨rfl, rfl⟩ := h
          cases hdw : r.dropWhile isDigit with
          | nil =>
            exfalso
            rw [hdw] at hq
            simp [parseFracExp, parseFrac, parseExp] at hq
            cases hq
            exact hne rfl
          | cons d r' =>
            rw [if_neg h0, if_pos hd, takeWhile_append_stop hdw,
              dropWhile_append_cons hdw]
            rw [hdw] at hq
            have hext := parseFracExp_ext hq hne t
            rw [List.cons_append] at hext
            rw [hext]
            rfl
      · rw [if_neg h0, if_neg hd] at h
        exact Option.noConfusion h

theorem parseNum_ext {cs lex rest} (h : parseNum cs = some (lex, rest))
    (hne : rest ≠ []) (t : List Char) :
    parseNum (cs ++ t) = some (lex, rest ++ t) := by
  cases cs with
  | nil => exact Option.noConfusion h
  | cons c r =>
    simp only [parseNum] at h
    rw [List.cons_append]
    simp only [parseNum]
    by_cases hm : c = '-'
    · rw [if_pos hm] at h
      cases hq : numIntPart r with
      | none => rw [hq] at h; exact Option.noConfusion h
      | some q =>
        rw [hq] at h
        simp only [Option.map_some', Option.some.injEq, Prod.mk.injEq] at h
        obtain ⟨rfl, rfl⟩ := h
        rw [if_pos hm, numIntPart_ext hq hne t]
        rfl
    · rw [if_neg hm] at h
      rw [if_neg hm, ← List.cons_append]
      exact numIntPart_ext h hne t

theorem matchLit_ext :
    ∀ {lit cs r}, matchLit lit cs = some r → ∀ t, matchLit lit (cs ++ t) = some (r ++ t) := by
  intro lit
  induction lit with
  | nil =>
    intro cs r h t
    simp only [matchLit, Option.some.injEq] at h
    subst h
    rfl
  | cons l ls ih =>
    intro cs r h t
    cases cs with
    | nil => exact Option.noConfusion h
    | cons c cs' =>
      simp only [matchLit] at h
      by_cases hc : c = l
      · rw [if_pos hc] at h
        rw [List.cons_append]
        simp only [matchLit]
        rw [if_pos hc]
        exact ih h t
      · rw [if_neg hc] at h
        exact Option.noConfusion h

theorem litTail_ext {lit v cs w rest} (h : litTail lit v cs = some (w, rest))
    (t : List Char) : litTail lit v (cs ++ t) = some (w, rest ++ t) := by
  unfold litTail at h ⊢
  cases hm : matchLit lit cs with
  | none => rw [hm] at h; exact Option.noConfusion h
  | some r =>
    rw [hm] at h
    simp only [Option.map_some', Option.some.injEq, Prod.mk.injEq] at h
    obtain ⟨rfl, rfl⟩ := h
    rw [matchLit_ext hm t]
    rfl

theorem expectColon_ext {cs r} (h : expectColon cs = some r) (t : List Char) :
    expectColon (cs ++ t) = some (r ++ t) := by
  unfold expectColon at h ⊢
  split at h
  · rename_i x cs3 heq
    simp only [Option.some.injEq] at h
    subst h
    rw [skipWs_append_cons heq]
    rfl
  · exact Option.noConfusion h

theorem membersF_nil (pv : List Char → Option (JVal × List Char)) :
    ∀ f acc, parseMembersF pv f acc [] = none := by
  intro f acc; cases f <;> rfl

theorem elemsF_nil {pv : List Char → Option (JVal × List Char)}
    (hpvnil : pv [] = none) : ∀ f acc, parseElemsF pv f acc [] = none := by
  intro f acc
  cases f with
  | zero => rfl
  | succ f => simp [parseElemsF, hpvnil]

/-! Fuel and value-parser monotonicity. -/

theorem memberSep_mono {k k' : List (String × JVal) → List Char → Option (JVal × List Char)}
    (hk : ∀ acc cs r, k acc cs = some r → k' acc cs = some r) :
    ∀ acc cs r, memberSep k acc cs = some r → memberSep k' acc cs = some r := by
  intro acc cs r h
  unfold memberSep at h ⊢
  split at h
  · exact hk _ _ _ h
  · exact h
  · exact Option.noConfusion h

theorem elemSep_mono {k k' : List JVal → List Char → Option (JVal × List Char)}
    (hk : ∀ acc cs r, k acc cs = some r → k' acc cs = some r) :
    ∀ acc cs r, elemSep k acc cs = some r → elemSep k' acc cs = some r := by
  intro acc cs r h
  unfold elemSep at h ⊢
  split at h
  · exact hk _ _ _ h
  · exact h
  · exact Option.noConfusion h

theorem objBody_mono {pm pm' : List (String × JVal) → List Char → Option (JVal × List Char)}
    (hpm : ∀ acc cs r, pm acc cs = some r → pm' acc cs = some r) :
    ∀ cs r, objBody pm cs = some r → objBody pm' cs = some r := by
  intro cs r h
  unfold objBody at h ⊢
  split at h
  · exact h
  · exact hpm _ _ _ h

theorem arrBody_mono {pe pe' : List JVal → List Char → Option (JVal × List Char)}
    (hpe : ∀ acc cs r, pe acc cs = some r → pe' acc cs = some r) :
    ∀ cs r, arrBody pe cs = some r → arrBody pe' cs = some r := by
  intro cs r h
  unfold arrBody at h ⊢
  split at h
  · exact h
  · exact hpe _ _ _ h

theorem membersF_mono {pv pv' : List Char → Option (JVal × List Char)}
    (hpv : ∀ cs r, pv cs = some r → pv' cs = some r) :
    ∀ f acc cs r, parseMembersF pv f acc cs = some r →
      ∀ f', f ≤ f' → parseMembersF pv' f' acc cs = some r := by
  intro f
  induction f with
  | zero => intro acc cs r h; exact absurd h (by simp [parseMembersF])
  | succ f ih =>
    intro acc cs r h f' hf'
    cases f' with
    | zero => omega
    | succ f'' =>
      have hff : f ≤ f'' := by omega
      cases cs with
      | nil => rw [membersF_nil] at h; exact Option.noConfusion h
      | cons c cs1 =>
        by_cases hc : c = '"'
        · subst hc
          simp only [parseMembersF] at h ⊢
          cases hk : parseStrTail cs1 with
          | none => rw [hk] at h; exact Option.noConfusion h
          | some kp =>
            rw [hk] at h
            simp only [Option.some_bind] at h ⊢
            cases hcol : expectColon kp.2 with
            | none => rw [hcol] at h; exact Option.noConfusion h
            | some cs3 =>
              rw [hcol] at h
              simp only [Option.some_bind] at h ⊢
              cases hv : pv (jsonSkipWs cs3) with
              | none => rw [hv] at h; exact Option.noConfusion h
              | some vp =>
                rw [hv] at h
                rw [hpv _ _ hv]
                simp only [Option.some_bind] at h ⊢
                exact memberSep_mono (fun acc cs r hx => ih acc cs r hx f'' hff) _ _ _ h
        · exfalso
          have hne : ∀ (x : List Char), c :: cs1 = '"' :: x → False :=
            fun x hx => hc (List.cons.inj hx).1
          simp only [parseMembersF, hne] at h
          exact Option.noConfusion h

theorem elemsF_mono {pv pv' : List Char → Option (JVal × List Char)}
    (hpv : ∀ cs r, pv cs = some r → pv' cs = some r) :
    ∀ f acc cs r, parseElemsF pv f acc cs = some r →
      ∀ f', f ≤ f' → parseElemsF pv' f' acc cs = some r := by
  intro f
  induction f with
  | zero => intro acc cs r h; exact absurd h (by simp [parseElemsF])
  | succ f ih =>
    intro acc cs r h f' hf'
    cases f' with
    | zero => omega
    | succ f'' =>
      have hff : f ≤ f'' := by omega
      simp only [parseElemsF] at h ⊢
      cases hv : pv cs with
      | none => rw [hv] at h; exact Option.noConfusion h
      | some vp =>
        rw [hv] at h
        rw [hpv _ _ hv]
        simp only [Option.some_bind] at h ⊢
        exact elemSep_mono (fun acc cs r hx => ih acc cs r hx f'' hff) _ _ _ h

theorem value_mono :
    ∀ f cs r, parseValue f cs = some r → ∀ g, f ≤ g → parseValue g cs = some r := by
  intro f
  induction f with
  | zero => intro cs r h; exact absurd h (by simp [parseValue])
  | succ f ih =>
    intro cs r h g hg
    cases g with
    | zero => omega
    | succ g' =>
      have hfg : f ≤ g' := by omega
      cases cs with
      | nil => exact Option.noConfusion h
      | cons c cs' =>
        simp only [parseValue] at h ⊢
        by_cases h1 : c = '{'
        · rw [if_pos h1] at h
          rw [if_pos h1]
          exact objBody_mono
            (membersF_mono (fun cs r hx => ih cs r hx g' hfg) f · · · · g' hfg) _ _ h
        · rw [if_neg h1] at h; rw [if_neg h1]
          by_cases h2 : c = '['
          · rw [if_pos h2] at h
            rw [if_pos h2]
            exact arrBody_mono
              (elemsF_mono (fun cs r hx => ih cs r hx g' hfg) f · · · · g' hfg) _ _ h
          · rw [if_neg h2] at h; rw [if_neg h2]
            by_cases h3 : c = '"'
            · rw [if_pos h3] at h; rw [if_pos h3]; exact h
            · rw [if_neg h3] at h; rw [if_neg h3]
              by_cases h4 : c = 't'
              · rw [if_pos h4] at h; rw [if_pos h4]; exact h
              · rw [if_neg h4] at h; rw [if_neg h4]
                by_cases h5 : c = 'f'
                · rw [if_pos h5] at h; rw [if_pos h5]; exact h
                · rw [if_neg h5] at h; rw [if_neg h5]
                  by_cases h6 : c = 'n'
                  · rw [if_pos h6] at h; rw [if_pos h6]; exact h
                  · rw [if_neg h6] at h; rw [if_neg h6]; exact h

/-! Extension of successful parses under appended input.  A value parse is
extension-stable when its leftover is nonempty (the next character decided
where it stopped) or the value starts with a delimited construct (object,
array, string or literal, which end on their own closing token); numbers at
the very end of the input are the only non-extendable case, and inside
objects and arrays the separator that follows every element guarantees a
nonempty leftover. -/

theorem memberSep_ext {k : List (String × JVal) → List Char → Option (JVal × List Char)}
    (hk : ∀ acc cs v rest, k acc cs = some (v, rest) → ∀ t, k acc (cs ++ t) = some (v, rest ++ t))
    (hknil : ∀ acc, k acc [] = none) :
    ∀ acc cs v rest, memberSep k acc cs = some (v, rest) → ∀ t,
      memberSep k acc (cs ++ t) = some (v, rest ++ t) := by
  intro acc cs v rest h t
  unfold memberSep at h ⊢
  split at h
  · rename_i x cs5 heq
    rw [skipWs_append_cons heq]
    cases hs5 : jsonSkipWs cs5 with
    | nil => rw [hs5, hknil] at h; exact Option.noConfusion h
    | cons y ys =>
      rw [hs5] at h
      have hext := hk _ _ _ _ h t
      rw [List.cons_append] at hext
      show k acc (jsonSkipWs (cs5 ++ t)) = some (v, rest ++ t)
      rw [skipWs_append_cons hs5]
      exact hext
  · rename_i x cs5 heq
    rw [skipWs_append_cons heq]
    simp only [Option.some.injEq, Prod.mk.injEq] at h
    obtain ⟨rfl, rfl⟩ := h
    rfl
  · exact Option.noConfusion h

theorem elemSep_ext {k : List JVal → List Char → Option (JVal × List Char)}
    (hk : ∀ acc cs v rest, k acc cs = some (v, rest) → ∀ t, k acc (cs ++ t) = some (v, rest ++ t))
    (hknil : ∀ acc, k acc [] = none) :
    ∀ acc cs v rest, elemSep k acc cs = some (v, rest) → ∀ t,
      elemSep k acc (cs ++ t) = some (v, rest ++ t) := by
  intro acc cs v rest h t
  unfold elemSep at h ⊢
  split at h
  · rename_i x cs2 heq
    rw [skipWs_append_cons heq]
    cases hs2 : jsonSkipWs cs2 with
    | nil => rw [hs2, hknil] at h; exact Option.noConfusion h
    | cons y ys =>
      rw [hs2] at h
      have hext := hk _ _ _ _ h t
      rw [List.cons_append] at hext
      show k acc (jsonSkipWs (cs2 ++ t)) = some (v, rest ++ t)
      rw [skipWs_append_cons hs2]
      exact hext
  · rename_i x cs2 heq
    rw [skipWs_append_cons heq]
    simp only [Option.some.injEq, Prod.mk.injEq] at h
    obtain ⟨rfl, rfl⟩ := h
    rfl
  · exact Option.noConfusion h

theorem membersF_ext {pv : List Char → Option (JVal × List Char)}
    (hpv : ∀ cs v rest, pv cs = some (v, rest) → rest ≠ [] → ∀ t, pv (cs ++ t) = some (v, rest ++ t))
    (hpvnil : pv [] = none) :
    ∀ f acc cs v rest, parseMembersF pv f acc cs = some (v, rest) → ∀ t,
      parseMembersF pv f acc (cs ++ t) = some (v, rest ++ t) := by
  intro f
  induction f with
  | zero => intro acc cs v rest h; exact absurd h (by simp [parseMembersF])
  | succ f ih =>
    intro acc cs v rest h t
    cases cs with
    | nil => rw [membersF_nil] at h; exact Option.noConfusion h
    | cons c cs1 =>
      by_cases hc : c = '"'
      · subst hc
        rw [List.cons_append]
        simp only [parseMembersF] at h ⊢
        cases hk : parseStrTail cs1 with
        | none => rw [hk] at h; exact Option.noConfusion h
        | some kp =>
          rw [hk] at h
          have hk' : parseStrTail cs1 = some (kp.1, kp.2) := by rw [hk]
          rw [parseStrTail_ext hk' t]
          simp only [Option.some_bind] at h ⊢
          cases hcol : expectColon kp.2 with
          | none => rw [hcol] at h; exact Option.noConfusion h
          | some cs3 =>
            rw [hcol] at h
            rw [expectColon_ext hcol t]
            simp only [Option.some_bind] at h ⊢
            cases hv : pv (jsonSkipWs cs3) with
            | none => rw [hv] at h; exact Option.noConfusion h
            | some vp =>
              rw [hv] at h
              simp only [Option.some_bind] at h
              have hvp2 : vp.2 ≠ [] := by
                intro hnil
                rw [hnil] at h
                simp [memberSep, jsonSkipWs] at h
              cases hs3 : jsonSkipWs cs3 with
              | nil => rw [hs3, hpvnil] at hv; exact Option.noConfusion hv
              | cons y ys =>
                rw [skipWs_append_cons hs3]
                rw [hs3] at hv
                have hvp' : pv (jsonSkipWs cs3) = some (vp.1, vp.2) := by rw [hs3, hv]
                rw [hs3] at hvp'
                have hext := hpv _ _ _ hvp' hvp2 t
                rw [List.cons_append] at hext
                rw [hext]
                simp only [Option.some_bind]
                exact memberSep_ext (fun acc cs v rest hx t => ih acc cs v rest hx t)
                  (fun acc => membersF_nil pv f acc) _ _ _ _ h t
      · exfalso
        have hne : ∀ (x : List Char), c :: cs1 = '"' :: x → False :=
          fun x hx => hc (List.cons.inj hx).1
        simp only [parseMembersF, hne] at h
        exact Option.noConfusion h

theorem elemsF_ext {pv : List Char → Option (JVal × List Char)}
    (hpv : ∀ cs v rest, pv cs = some (v, rest) → rest ≠ [] → ∀ t, pv (cs ++ t) = some (v, rest ++ t))
    (hpvnil : pv [] = none) :
    ∀ f acc cs v rest, parseElemsF pv f acc cs = some (v, rest) → ∀ t,
      parseElemsF pv f acc (cs ++ t) = some (v, rest ++ t) := by
  intro f
  induction f with
  | zero => intro acc cs v rest h; exact absurd h (by simp [parseElemsF])
  | succ f ih =>
    intro acc cs v rest h t
    simp only [parseElemsF] at h ⊢
    cases hv : pv cs with
    | none => rw [hv] at h; exact Option.noConfusion h
    | some vp =>
      rw [hv] at h
      simp only [Option.some_bind] at h
      have hvp2 : vp.2 ≠ [] := by
        intro hnil
        rw [hnil] at h
        simp [elemSep, jsonSkipWs] at h
      have hv' : pv cs = some (vp.1, vp.2) := by rw [hv]
      rw [hpv _ _ _ hv' hvp2 t]
      simp only [Option.some_bind]
      exact elemSep_ext (fun acc cs v rest hx t => ih acc cs v rest hx t)
        (fun acc => elemsF_nil hpvnil f acc) _ _ _ _ h t

theorem value_ext :
    ∀ f cs v rest, parseValue f cs = some (v, rest) →
      (rest ≠ [] ∨ (∃ c cs', cs = c :: cs' ∧
        (c = '{' ∨ c = '[' ∨ c = '"' ∨ c = 't' ∨ c = 'f' ∨ c = 'n'))) →
      ∀ t, parseValue f (cs ++ t) = some (v, rest ++ t) := by
  intro f
  induction f with
  | zero => intro cs v rest h; exact absurd h (by simp [parseValue])
  | succ f ih =>
    intro cs v rest h hcond t
    have hpv : ∀ cs v rest, parseValue f cs = some (v, rest) → rest ≠ [] →
        ∀ t, parseValue f (cs ++ t) = some (v, rest ++ t) :=
      fun cs v rest hx hne t => ih cs v rest hx (Or.inl hne) t
    cases cs with
    | nil => exact Option.noConfusion h
    | cons c cs' =>
      rw [List.cons_append]
      simp only [parseValue] at h ⊢
      by_cases h1 : c = '{'
      · rw [if_pos h1] at h
        rw [if_pos h1]
        unfold objBody at h ⊢
        split at h
        · rename_i x r heq
          rw [skipWs_append_cons heq]
          simp only [Option.some.injEq, Prod.mk.injEq] at h
          obtain ⟨rfl, rfl⟩ := h
          rfl
        · rename_i x hne
          cases hsk : jsonSkipWs cs' with
          | nil => rw [hsk, membersF_nil] at h; exact Option.noConfusion h
          | cons y ys =>
            have hy : ¬(y = '}') := by
              intro hyy
              exact hne ys (by rw [hsk, hyy])
            rw [skipWs_append_cons hsk]
            rw [hsk] at h
            have hmem := membersF_ext hpv (value_fuel_nil f) f [] (y :: ys) v rest h t
            rw [List.cons_append] at hmem
            have hgoal : ∀ (z : List Char), y :: (ys ++ t) = '}' :: z → False := by
              intro z hz
              exact hy (List.cons.inj hz).1
            split
            · rename_i z hz
              exact absurd hz (hgoal z)
            · exact hmem
      · rw [if_neg h1] at h
        rw [if_neg h1]
        by_cases h2 : c = '['
        · rw [if_pos h2] at h
          rw [if_pos h2]
          unfold arrBody at h ⊢
          split at h
          · rename_i x r heq
            rw [skipWs_append_cons heq]
            simp only [Option.some.injEq, Prod.mk.injEq] at h
            obtain ⟨rfl, rfl⟩ := h
            rfl
          · rename_i x hne
            cases hsk : jsonSkipWs cs' with
            | nil =>
              rw [hsk, elemsF_nil (value_fuel_nil f)] at h
              exact Option.noConfusion h
            | cons y ys =>
              have hy : ¬(y = ']') := by
                intro hyy
                exact hne ys (by rw [hsk, hyy])
              rw [skipWs_append_cons hsk]
              rw [hsk] at h
              have helem := elemsF_ext hpv (value_fuel_nil f) f [] (y :: ys) v rest h t
              rw [List.cons_append] at helem
              have hgoal : ∀ (z : List Char), y :: (ys ++ t) = ']' :: z → False := by
                intro z hz
                exact hy (List.cons.inj hz).1
              split
              · rename_i z hz
                exact absurd hz (hgoal z)
              · exact helem
        · rw [if_neg h2] at h
          rw [if_neg h2]
          by_cases h3 : c = '"'
          · rw [if_pos h3] at h
            rw [if_pos h3]
            cases hs : parseStrTail cs' with
            | none => rw [hs] at h; exact Option.noConfusion h
            | some p =>
              rw [hs] at h
              have hs' : parseStrTail cs' = some (p.1, p.2) := by rw [hs]
              rw [parseStrTail_ext hs' t]
              simp only [Option.map_some', Option.some.injEq, Prod.mk.injEq] at h ⊢
              obtain ⟨rfl, rfl⟩ := h
              exact ⟨rfl, rfl⟩
          · rw [if_neg h3] at h
            rw [if_neg h3]
            by_cases h4 : c = 't'
            · rw [if_pos h4] at h
              rw [if_pos h4]
              exact litTail_ext h t
            · rw [if_neg h4] at h
              rw [if_neg h4]
              by_cases h5 : c = 'f'
              · rw [if_pos h5] at h
                rw [if_pos h5]
                exact litTail_ext h t
              · rw [if_neg h5] at h
                rw [if_neg h5]
                by_cases h6 : c = 'n'
                · rw [if_pos h6] at h
                  rw [if_pos h6]
                  exact litTail_ext h t
                · rw [if_neg h6] at h
                  rw [if_neg h6]
                  have hrest : rest ≠ [] := by
                    rcases hcond with hne | ⟨d, ds, hds, hd⟩
                    · exact hne
                    · exfalso
                      have hcd : c = d := (List.cons.inj hds).1
                      subst hcd
                      rcases hd with h' | h' | h' | h' | h' | h'
                      · exact h1 h'
                      · exact h2 h'
                      · exact h3 h'
                      · exact h4 h'
                      · exact h5 h'
                      · exact h6 h'
                  cases hn : parseNum (c :: cs') with
                  | none => rw [hn] at h; exact Option.noConfusion h
                  | some p =>
                    rw [hn] at h
                    have hn' : parseNum (c :: cs') = some (p.1, p.2) := by rw [hn]
                    simp only [Option.map_some', Option.some.injEq, Prod.mk.injEq] at h
                    obtain ⟨rfl, rfl⟩ := h
                    have hrest2 : p.2 ≠ [] := hrest
                    have hext := parseNum_ext hn' hrest2 t
                    rw [List.cons_append] at hext
                    rw [hext]
                    rfl

/-! Roundtrip: the canonical serialization parses back to the document. -/

theorem hexVal_hexDigit {n : Nat} (h : n < 16) : hexVal (hexDigit n) = some n := by
  interval_cases n <;> rfl

theorem charOfCode_small {c : Char} (h : c.toNat < 32) : charOfCode c.toNat = c := by
  unfold charOfCode
  rw [if_neg (by omega)]
  exact Char.ofNat_toNat c

theorem escListL_cons (c : Char) (l : List Char) :
    escListL (c :: l) = escBody c ++ escListL l := rfl

theorem rt_escPair {e ec : Char} (he : escChar e = some ec) (hu : e ≠ 'u')
    (X : List Char) {b r : List Char} (hX : parseStrTail X = some (b, r)) :
    parseStrTail ('\\' :: e :: X) = some (ec :: b, r) := by
  have hcond : ∀ (h1 h2 h3 h4 : Char) (rest3 : List Char),
      e = 'u' → X = h1 :: h2 :: h3 :: h4 :: rest3 → False :=
    fun _ _ _ _ _ heu _ => hu heu
  simp only [parseStrTail, hcond, he, Option.some_bind, hX, Option.map_some']

theorem rt_escU {n : Nat} (h32 : n < 32) (X : List Char) {b r : List Char}
    (hX : parseStrTail X = some (b, r)) :
    parseStrTail ('\\' :: 'u' :: '0' :: '0' :: hexDigit (n / 16) :: hexDigit (n % 16) :: X) =
      some (charOfCode n :: b, r) := by
  have hdiv : n / 16 < 16 := by omega
  have hmod : n % 16 < 16 := Nat.mod_lt n (by omega)
  have hh : hex4 '0' '0' (hexDigit (n / 16)) (hexDigit (n % 16)) = some n := by
    unfold hex4
    rw [show hexVal '0' = some 0 from rfl, hexVal_hexDigit hdiv, hexVal_hexDigit hmod]
    simp only [Option.some.injEq]
    omega
  simp only [parseStrTail, hh, Option.some_bind, hX, Option.map_some']

theorem rt_plainChar {c : Char} (hq : c ≠ '"') (hb : c ≠ '\\') (h32 : ¬c.toNat < 32)
    (X : List Char) {b r : List Char} (hX : parseStrTail X = some (b, r)) :
    parseStrTail (c :: X) = some (c :: b, r) := by
  have hq' : c = '"' → False := hq
  have hhex : ∀ (h1 h2 h3 h4 : Char) (rest3 : List Char),
      c = '\\' → X = 'u' :: h1 :: h2 :: h3 :: h4 :: rest3 → False :=
    fun _ _ _ _ _ hcc _ => hb hcc
  have hesc : ∀ (e : Char) (rest2 : List Char), c = '\\' → X = e :: rest2 → False :=
    fun _ _ hcc _ => hb hcc
  have hnil : c = '\\' → X = [] → False := fun hcc _ => hb hcc
  simp only [parseStrTail, hq', hhex, hesc, hnil, if_neg h32, hX, Option.map_some']

theorem rt_strBody : ∀ (l t : List Char),
    parseStrTail (escListL l ++ ('"' :: t)) = some (l, t) := by
  intro l
  induction l with
  | nil => intro t; rfl
  | cons c l' ih =>
    intro t
    rw [escListL_cons, List.append_assoc]
    by_cases h1 : c = '"'
    · subst h1
      rw [show escBody '"' = ['\\', '"'] from rfl, List.cons_append, List.cons_append,
        List.nil_append]
      exact rt_escPair (show escChar '"' = some '"' from rfl) (by decide) _ (ih t)
    · by_cases h2 : c = '\\'
      · subst h2
        rw [show escBody '\\' = ['\\', '\\'] from rfl, List.cons_append, List.cons_append,
          List.nil_append]
        exact rt_escPair (show escChar '\\' = some '\\' from rfl) (by decide) _ (ih t)
      · by_cases h3 : c = '\n'
        · subst h3
          rw [show escBody '\n' = ['\\', 'n'] from rfl, List.cons_append, List.cons_append,
            List.nil_append]
          exact rt_escPair (show escChar 'n' = some '\n' from rfl) (by decide) _ (ih t)
        · by_cases h4 : c = '\r'
          · subst h4
            rw [show escBody '\r' = ['\\', 'r'] from rfl, List.cons_append, List.cons_append,
              List.nil_append]
            exact rt_escPair (show escChar 'r' = some '\r' from rfl) (by decide) _ (ih t)
          · by_cases h5 : c = '\t'
            · subst h5
              rw [show escBody '\t' = ['\\', 't'] from rfl, List.cons_append,
                List.cons_append, List.nil_append]
              exact rt_escPair (show escChar 't' = some '\t' from rfl) (by decide) _ (ih t)
            · by_cases h6 : c = '\x08'
              · subst h6
                rw [show escBody '\x08' = ['\\', 'b'] from rfl, List.cons_append,
                  List.cons_append, List.nil_append]
                exact rt_escPair (show escChar 'b' = some '\x08' from rfl) (by decide) _ (ih t)
              · by_cases h7 : c = '\x0c'
                · subst h7
                  rw [show escBody '\x0c' = ['\\', 'f'] from rfl, List.cons_append,
                    List.cons_append, List.nil_append]
                  exact rt_escPair (show escChar 'f' = some '\x0c' from rfl) (by decide) _ (ih t)
                · by_cases h8 : c.toNat < 32
                  · unfold escBody
                    rw [if_neg h1, if_neg h2, if_neg h3, if_neg h4, if_neg h5, if_neg h6,
                      if_neg h7, if_pos h8]
                    simp only [List.cons_append, List.nil_append]
                    rw [rt_escU h8 _ (ih t), charOfCode_small h8]
                  · unfold escBody
                    rw [if_neg h1, if_neg h2, if_neg h3, if_neg h4, if_neg h5, if_neg h6,
                      if_neg h7, if_neg h8]
                    simp only [List.cons_append, List.nil_append]
                    exact rt_plainChar h1 h2 h8 _ (ih t)

theorem insertKV_fresh {acc : List (String × JVal)} {k : String} {v : JVal}
    (h : ∀ p ∈ acc, p.1 ≠ k) : insertKV acc k v = acc ++ [(k, v)] := by
  have hfalse : (acc.any (fun p => p.1 == k)) = false := by
    rw [List.any_eq_false]
    intro p hp
    simpa using h p hp
  unfold insertKV
  rw [hfalse]
  simp

theorem serStrL_len (s : String) : 2 ≤ (serStrL s).length := by
  simp [serStrL]

theorem serMembersL_mem_len :
    ∀ {kvs : List (String × List Char)} {k : String} {v : List Char},
      (k, v) ∈ kvs → v.length + 3 ≤ (serMembersL kvs).length := by
  intro kvs
  induction kvs with
  | nil => intro k v h; cases h
  | cons m rest ih =>
    intro k v h
    cases rest with
    | nil =>
      rw [List.mem_singleton] at h
      obtain rfl := h.symm
      have := serStrL_len k
      simp [serMembersL]
      omega
    | cons m2 rest2 =>
      rcases List.mem_cons.mp h with h1 | h2
      · obtain rfl := h1.symm
        have := serStrL_len k
        simp [serMembersL]
        omega
      · have := ih h2
        have h2 := serStrL_len m.1
        simp [serMembersL] at this ⊢
        omega

theorem serElemsL_mem_len :
    ∀ {vs : List (List Char)} {v : List Char}, v ∈ vs →
      v.length ≤ (serElemsL vs).length := by
  intro vs
  induction vs with
  | nil => intro v h; cases h
  | cons w rest ih =>
    intro v h
    cases rest with
    | nil =>
      rw [List.mem_singleton] at h
      subst h
      simp [serElemsL]
    | cons w2 rest2 =>
      rcases List.mem_cons.mp h with h1 | h2
      · subst h1
        simp [serElemsL]
      · have := ih h2
        simp [serElemsL] at this ⊢
        omega

theorem serMembersL_cons_head (m : String × List Char) (rest : List (String × List Char)) :
    ∃ z, serMembersL (m :: rest) = '"' :: z := by
  cases rest with
  | nil => exact ⟨escListL m.1.data ++ ['"'] ++ (':' :: m.2), by simp [serMembersL, serStrL]⟩
  | cons m2 rest2 =>
    exact ⟨escListL m.1.data ++ ['"'] ++ (':' :: (m.2 ++ ',' :: serMembersL (m2 :: rest2))),
      by simp [serMembersL, serStrL]⟩

theorem serElemsL_cons_shape (v : List Char) (rest : List (List Char)) :
    ∃ z, serElemsL (v :: rest) = v ++ z := by
  cases rest with
  | nil => exact ⟨[], by simp [serElemsL]⟩
  | cons v2 rest2 => exact ⟨',' :: serElemsL (v2 :: rest2), rfl⟩

theorem expectColon_colon (X : List Char) : expectColon (':' :: X) = some X := by
  unfold expectColon
  rw [skipWs_cons_not (by rfl)]
  rfl

theorem memberSep_close {k : List (String × JVal) → List Char → Option (JVal × List Char)}
    (acc : List (String × JVal)) (t : List Char) :
    memberSep k acc ('}' :: t) = some (.obj acc, t) := by
  unfold memberSep
  rw [skipWs_cons_not (by rfl)]
  rfl

theorem memberSep_comma {k : List (String × JVal) → List Char → Option (JVal × List Char)}
    (acc : List (String × JVal)) (X : List Char) :
    memberSep k acc (',' :: X) = k acc (jsonSkipWs X) := by
  unfold memberSep
  rw [skipWs_cons_not (by rfl)]
  rfl

theorem elemSep_close {k : List JVal → List Char → Option (JVal × List Char)}
    (acc : List JVal) (t : List Char) :
    elemSep k acc (']' :: t) = some (.arr acc, t) := by
  unfold elemSep
  rw [skipWs_cons_not (by rfl)]
  rfl

theorem elemSep_comma {k : List JVal → List Char → Option (JVal × List Char)}
    (acc : List JVal) (X : List Char) :
    elemSep k acc (',' :: X) = k acc (jsonSkipWs X) := by
  unfold elemSep
  rw [skipWs_cons_not (by rfl)]
  rfl

theorem rt_member_step {pv : List Char → Option (JVal × List Char)}
    (m : String × List Char × JVal)
    (hpv : ∀ t, pv (m.2.1 ++ t) = some (m.2.2, t))
    (hhead : ∃ c cs', m.2.1 = c :: cs' ∧ isJsonWs c = false)
    (f0 : Nat) (acc : List (String × JVal)) (X : List Char) :
    parseMembersF pv (f0 + 1) acc ((serStrL m.1 ++ (':' :: m.2.1)) ++ X) =
      memberSep (parseMembersF pv f0) (insertKV acc m.1 m.2.2) X := by
  obtain ⟨c, cs', hv, hws⟩ := hhead
  simp only [serStrL, List.cons_append, List.append_assoc, List.nil_append]
  simp only [parseMembersF]
  rw [rt_strBody]
  simp only [Option.some_bind]
  rw [expectColon_colon]
  simp only [Option.some_bind]
  rw [hv, List.cons_append, skipWs_cons_not hws, ← List.cons_append, ← hv, hpv X]
  simp only [Option.some_bind]

theorem rt_members {pv : List Char → Option (JVal × List Char)} :
    ∀ (ms : List (String × List Char × JVal)), ms ≠ [] →
      (∀ m ∈ ms, ∀ t, pv (m.2.1 ++ t) = some (m.2.2, t)) →
      (∀ m ∈ ms, ∃ c cs', m.2.1 = c :: cs' ∧ isJsonWs c = false) →
      (ms.map (fun m => m.1)).Nodup →
      ∀ f, (serMembersL (ms.map (fun m => (m.1, m.2.1)))).length < f →
      ∀ acc, (∀ m ∈ ms, ∀ p ∈ acc, p.1 ≠ m.1) →
      ∀ t, parseMembersF pv f acc
          (serMembersL (ms.map (fun m => (m.1, m.2.1))) ++ ('}' :: t)) =
        some (.obj (acc ++ ms.map (fun m => (m.1, m.2.2))), t) := by
  intro ms
  induction ms with
  | nil => intro h; exact absurd rfl h
  | cons m rest ih =>
    intro _ hpv hhead hnodup f hf acc hacc t
    cases f with
    | zero => omega
    | succ f0 =>
      cases rest with
      | nil =>
        simp only [List.map_cons, List.map_nil, serMembersL]
        rw [rt_member_step m (hpv m (List.mem_cons_self m _)) (hhead m (List.mem_cons_self m _)) f0 acc,
          memberSep_close, insertKV_fresh (fun p hp => hacc m (List.mem_cons_self m _) p hp)]
      | cons m2 rest2 =>
        simp only [List.map_cons] at hnodup hf ⊢
        simp only [serMembersL] at hf ⊢
        have hshape :
            (serStrL m.1 ++ ':' :: (m.2.1 ++ ',' ::
              serMembersL ((m2.1, m2.2.1) :: rest2.map (fun m => (m.1, m.2.1))))) ++ '}' :: t
            = (serStrL m.1 ++ (':' :: m.2.1)) ++ (',' ::
              (serMembersL ((m2.1, m2.2.1) :: rest2.map (fun m => (m.1, m.2.1))) ++ '}' :: t)) := by
          simp
        rw [hshape, rt_member_step m (hpv m (List.mem_cons_self m _)) (hhead m (List.mem_cons_self m _)) f0 acc,
          memberSep_comma]
        obtain ⟨z, hz⟩ := serMembersL_cons_head (m2.1, m2.2.1) (rest2.map (fun m => (m.1, m.2.1)))
        rw [hz, List.cons_append, skipWs_cons_not (by rfl), ← List.cons_append, ← hz]
        rw [insertKV_fresh (fun p hp => hacc m (List.mem_cons_self m _) p hp)]
        have hnd := List.nodup_cons.mp hnodup
        have hkey : m.1 ∉ m2.1 :: rest2.map (fun m => m.1) := hnd.1
        have hfuel : (serMembersL ((m2.1, m2.2.1) :: rest2.map (fun m => (m.1, m.2.1)))).length < f0 := by
          have hs := serStrL_len m.1
          simp only [List.length_append, List.length_cons] at hf
          omega
        have hacc' : ∀ m' ∈ m2 :: rest2, ∀ p ∈ acc ++ [(m.1, m.2.2)], p.1 ≠ m'.1 := by
          intro m' hm' p hp
          rcases List.mem_append.mp hp with h | h
          · exact hacc m' (List.mem_cons_of_mem m hm') p h
          · rw [List.mem_singleton] at h
            subst h
            intro heq
            have hmm := List.mem_map_of_mem (fun m => m.1) hm'
            rw [List.map_cons] at hmm
            exact hkey (heq ▸ hmm)
        have ihres := ih (List.cons_ne_nil m2 rest2)
          (fun m' hm' => hpv m' (List.mem_cons_of_mem m hm'))
          (fun m' hm' => hhead m' (List.mem_cons_of_mem m hm'))
          (by rw [List.map_cons]; exact hnd.2)
          f0 (by rw [List.map_cons]; exact hfuel)
          (acc ++ [(m.1, m.2.2)]) hacc' t
        simp only [List.map_cons] at ihres
        rw [ihres]
        simp

theorem rt_elems {pv : List Char → Option (JVal × List Char)} :
    ∀ (es : List (List Char × JVal)), es ≠ [] →
      (∀ e ∈ es, ∀ t, pv (e.1 ++ t) = some (e.2, t)) →
      (∀ e ∈ es, ∃ c cs', e.1 = c :: cs' ∧ isJsonWs c = false) →
      ∀ f, (serElemsL (es.map (fun e => e.1))).length < f →
      ∀ acc t, parseElemsF pv f acc (serElemsL (es.map (fun e => e.1)) ++ (']' :: t)) =
        some (.arr (acc ++ es.map (fun e => e.2)), t) := by
  intro es
  induction es with
  | nil => intro h; exact absurd rfl h
  | cons e rest ih =>
    intro _ hpv hhead f hf acc t
    cases f with
    | zero => omega
    | succ f0 =>
      cases rest with
      | nil =>
        simp only [List.map_cons, List.map_nil, serElemsL]
        simp only [parseElemsF]
        rw [hpv e (List.mem_cons_self e _)]
        simp only [Option.some_bind]
        rw [elemSep_close]
      | cons e2 rest2 =>
        simp only [List.map_cons] at hf ⊢
        simp only [serElemsL] at hf ⊢
        have hshape : (e.1 ++ ',' :: serElemsL (e2.1 :: rest2.map (fun e => e.1))) ++ ']' :: t
            = e.1 ++ (',' :: (serElemsL (e2.1 :: rest2.map (fun e => e.1)) ++ ']' :: t)) := by
          simp
        rw [hshape]
        simp only [parseElemsF]
        rw [hpv e (List.mem_cons_self e _)]
        simp only [Option.some_bind]
        rw [elemSep_comma]
        obtain ⟨c, cs', hv2, hws⟩ := hhead e2 (List.mem_cons_of_mem e (List.mem_cons_self e2 _))
        obtain ⟨z, hz⟩ := serElemsL_cons_shape e2.1 (rest2.map (fun e => e.1))
        rw [hz, hv2, List.cons_append, List.cons_append, skipWs_cons_not hws,
          ← List.cons_append, ← List.cons_append, ← hv2, ← hz]
        have hfuel : (serElemsL (e2.1 :: rest2.map (fun e => e.1))).length < f0 := by
          have he1 : 1 ≤ e.1.length := by
            obtain ⟨c1, cs1, hv1, _⟩ := hhead e (List.mem_cons_self e _)
            rw [hv1]
            simp
          simp only [List.length_append, List.length_cons] at hf
          omega
        have ihres := ih (List.cons_ne_nil e2 rest2)
          (fun e' he' => hpv e' (List.mem_cons_of_mem e he'))
          (fun e' he' => hhead e' (List.mem_cons_of_mem e he'))
          f0 (by rw [List.map_cons]; exact hfuel)
          (acc ++ [e.2]) t
        simp only [List.map_cons] at ihres
        rw [ihres]
        simp

theorem arrBody_not_close (pe : List JVal → List Char → Option (JVal × List Char))
    (c : Char) (l : List Char) (h : ¬(c = ']')) :
    arrBody pe (c :: l) = pe [] (c :: l) := by
  unfold arrBody
  split
  · rename_i heq
    rw [List.cons.injEq] at heq
    exact absurd heq.1 h
  · rfl

theorem rt_value_str (s : String) : ∀ f t, 0 < f →
    parseValue f (serStrL s ++ t) = some (.str s, t) := by
  intro f t hf
  cases f with
  | zero => omega
  | succ f0 =>
    simp only [serStrL, List.cons_append, List.append_assoc, List.nil_append]
    simp only [parseValue]
    rw [if_true, rt_strBody]
    simp only [Option.map_some']
    rw [stringMk_data, if_neg (by decide), if_neg (by decide)]

theorem rt_objVal (ms : List (String × List Char × JVal)) (hne : ms ≠ [])
    (hpv : ∀ m ∈ ms, ∀ g t, (m.2.1).length < g → parseValue g (m.2.1 ++ t) = some (m.2.2, t))
    (hhead : ∀ m ∈ ms, ∃ c cs', m.2.1 = c :: cs' ∧ isJsonWs c = false)
    (hnodup : (ms.map (fun m => m.1)).Nodup) :
    ∀ f t, (serObjL (ms.map (fun m => (m.1, m.2.1)))).length < f →
      parseValue f (serObjL (ms.map (fun m => (m.1, m.2.1))) ++ t) =
        some (.obj (ms.map (fun m => (m.1, m.2.2))), t) := by
  intro f t hf
  cases f with
  | zero => omega
  | succ f0 =>
    cases ms with
    | nil => exact absurd rfl hne
    | cons m rest =>
      simp only [serObjL, List.cons_append, List.append_assoc, List.nil_append] at hf ⊢
      simp only [parseValue]
      rw [if_true]
      simp only [List.map_cons]
      obtain ⟨z, hz⟩ := serMembersL_cons_head (m.1, m.2.1) (rest.map (fun m => (m.1, m.2.1)))
      rw [hz, List.cons_append, skipWs_cons_not (by rfl)]
      show parseMembersF (parseValue f0) f0 []
          ('"' :: (z ++ '}' :: t)) = some (.obj ((m :: rest).map (fun m => (m.1, m.2.2))), t)
      rw [← List.cons_append, ← hz]
      have hmem : ∀ m' ∈ m :: rest, ∀ t',
          parseValue f0 (m'.2.1 ++ t') = some (m'.2.2, t') := by
        intro m' hm' t'
        apply hpv m' hm' f0 t'
        have hlen := serMembersL_mem_len
          (List.mem_map_of_mem (fun m => (m.1, m.2.1)) hm')
        simp only [serObjL, List.length_cons, List.length_append, List.map_cons] at hf hlen ⊢
        omega
      have := rt_members (m :: rest) (List.cons_ne_nil m rest) hmem hhead hnodup f0
        (by
          simp only [serObjL, List.length_cons, List.length_append, List.map_cons] at hf ⊢
          omega)
        [] (fun m' _ p hp => absurd hp (List.not_mem_nil p)) t
      simp only [List.map_cons, List.nil_append] at this
      exact this

theorem rt_arrVal (es : List (List Char × JVal))
    (hpv : ∀ e ∈ es, ∀ g t, (e.1).length < g → parseValue g (e.1 ++ t) = some (e.2, t))
    (hhead : ∀ e ∈ es, ∃ c cs', e.1 = c :: cs' ∧ isJsonWs c = false ∧ ¬(c = ']')) :
    ∀ f t, (serArrL (es.map (fun e => e.1))).length < f →
      parseValue f (serArrL (es.map (fun e => e.1)) ++ t) =
        some (.arr (es.map (fun e => e.2)), t) := by
  intro f t hf
  cases f with
  | zero => omega
  | succ f0 =>
    cases es with
    | nil =>
      simp only [List.map_nil, serArrL, serElemsL, List.nil_append, List.cons_append]
      simp only [parseValue]
      rw [if_true, skipWs_cons_not (by rfl)]
      rfl
    | cons e rest =>
      simp only [serArrL, List.cons_append, List.append_assoc, List.nil_append] at hf ⊢
      simp only [parseValue]
      rw [if_true]
      simp only [List.map_cons]
      obtain ⟨c, cs', hv, hws, hbr⟩ := hhead e (List.mem_cons_self e _)
      obtain ⟨z, hz⟩ := serElemsL_cons_shape e.1 (rest.map (fun e => e.1))
      rw [hz, hv, List.cons_append, List.cons_append, skipWs_cons_not hws,
        arrBody_not_close _ c _ hbr]
      · rw [← List.cons_append, ← List.cons_append, ← hv, ← hz]
        have hmem : ∀ e' ∈ e :: rest, ∀ t',
            parseValue f0 (e'.1 ++ t') = some (e'.2, t') := by
          intro e' he' t'
          apply hpv e' he' f0 t'
          have hlen := serElemsL_mem_len (List.mem_map_of_mem (fun e => e.1) he')
          simp only [List.length_cons, List.length_append, List.map_cons] at hf hlen ⊢
          omega
        have := rt_elems (e :: rest) (List.cons_ne_nil e rest)
          (fun e' he' t' => hmem e' he' t')
          (fun e' he' => by
            obtain ⟨c1, cs1, hv1, hws1, _⟩ := hhead e' he'
            exact ⟨c1, cs1, hv1, hws1⟩)
          f0
          (by
            simp only [List.length_cons, List.length_append, List.map_cons] at hf ⊢
            omega)
          [] t
        simp only [List.map_cons, List.nil_append] at this
        exact this

theorem rt_strArr (ss : List String) : ∀ f t, (serArrL (ss.map serStrL)).length < f →
    parseValue f (serArrL (ss.map serStrL) ++ t) = some (.arr (ss.map JVal.str), t) := by
  intro f t hf
  have hmap1 : (ss.map (fun s => (serStrL s, JVal.str s))).map (fun e => e.1) =
      ss.map serStrL := by
    rw [List.map_map]
    rfl
  have hmap2 : (ss.map (fun s => (serStrL s, JVal.str s))).map (fun e => e.2) =
      ss.map JVal.str := by
    rw [List.map_map]
    rfl
  have h := rt_arrVal (ss.map (fun s => (serStrL s, JVal.str s)))
    (by
      intro e he g t' hg
      obtain ⟨s, _, rfl⟩ := List.mem_map.mp he
      exact rt_value_str s g t' (by omega))
    (by
      intro e he
      obtain ⟨s, _, rfl⟩ := List.mem_map.mp he
      exact ⟨'"', escListL s.data ++ ['"'], rfl, by decide, by decide⟩)
    f t (by rw [hmap1]; exact hf)
  rw [hmap1, hmap2] at h
  exact h

theorem eventMembers_shape (E : EventRec) :
    ∀ m ∈ eventMembers E,
      (∃ s : String, m.2.1 = serStrL s ∧ m.2.2 = .str s) ∨
      (∃ ss : List String, m.2.1 = serArrL (ss.map serStrL) ∧ m.2.2 = .arr (ss.map JVal.str)) := by
  intro m hm
  simp only [eventMembers, List.mem_append] at hm
  rcases hm with ((((hm | hm) | hm) | hm) | hm)
  · simp only [List.mem_cons, List.not_mem_nil, or_false] at hm
    rcases hm with rfl | rfl | rfl | rfl <;> exact Or.inl ⟨_, rfl, rfl⟩
  · rcases htv : E.teams with _ | ts <;> simp only [htv] at hm
    · exact absurd hm (List.not_mem_nil m)
    · simp only [List.mem_singleton] at hm
      subst hm
      exact Or.inr ⟨ts, rfl, rfl⟩
  · rcases htv : E.date with _ | d <;> simp only [htv] at hm
    · exact absurd hm (List.not_mem_nil m)
    · simp only [List.mem_singleton] at hm
      subst hm
      exact Or.inl ⟨d, rfl, rfl⟩
  · rcases htv : E.source with _ | s <;> simp only [htv] at hm
    · exact absurd hm (List.not_mem_nil m)
    · simp only [List.mem_singleton] at hm
      subst hm
      exact Or.inl ⟨s, rfl, rfl⟩
  · rcases htv : E.links with _ | ls <;> simp only [htv] at hm
    · exact absurd hm (List.not_mem_nil m)
    · simp only [List.mem_singleton] at hm
      subst hm
      exact Or.inr ⟨ls, rfl, rfl⟩

theorem eventMembers_ne (E : EventRec) : eventMembers E ≠ [] := by
  intro h
  have : ("category", serStrL E.category, JVal.str E.category) ∈ eventMembers E := by
    simp only [eventMembers, List.mem_append]
    exact Or.inl (Or.inl (Or.inl (Or.inl (List.mem_cons_self _ _))))
  rw [h] at this
  exact List.not_mem_nil _ this

theorem eventMembers_nodup (E : EventRec) :
    ((eventMembers E).map (fun m => m.1)).Nodup := by
  rcases E with ⟨c, h, d, s, teams, date, src, links⟩
  rcases teams with _ | ts <;> rcases date with _ | dt <;>
    rcases src with _ | so <;> rcases links with _ | ls <;>
    simp only [eventMembers, List.map_append, List.map_cons, List.map_nil] <;> decide

theorem rt_event (E : EventRec) : ∀ f t, (serEventL E).length < f →
    parseValue f (serEventL E ++ t) = some (eventToJVal E, t) := by
  intro f t hf
  exact rt_objVal (eventMembers E) (eventMembers_ne E)
    (by
      intro m hm g t' hg
      rcases eventMembers_shape E m hm with ⟨s, h1, h2⟩ | ⟨ss, h1, h2⟩
      · rw [h1, h2]
        exact rt_value_str s g t' (by omega)
      · rw [h1, h2]
        exact rt_strArr ss g t' (by rw [← h1]; omega))
    (by
      intro m hm
      rcases eventMembers_shape E m hm with ⟨s, h1, _⟩ | ⟨ss, h1, _⟩
      · exact ⟨'"', escListL s.data ++ ['"'], by rw [h1]; rfl, by decide⟩
      · exact ⟨'[', serElemsL (ss.map serStrL) ++ [']'], by rw [h1]; rfl, by decide⟩)
    (eventMembers_nodup E) f t hf

theorem rt_eventsArr (Es : List EventRec) :
    ∀ f t, (serArrL (Es.map serEventL)).length < f →
      parseValue f (serArrL (Es.map serEventL) ++ t) = some (.arr (Es.map eventToJVal), t) := by
  intro f t hf
  have hmap1 : (Es.map (fun E => (serEventL E, eventToJVal E))).map (fun e => e.1) =
      Es.map serEventL := by
    rw [List.map_map]
    rfl
  have hmap2 : (Es.map (fun E => (serEventL E, eventToJVal E))).map (fun e => e.2) =
      Es.map eventToJVal := by
    rw [List.map_map]
    rfl
  have h := rt_arrVal (Es.map (fun E => (serEventL E, eventToJVal E)))
    (by
      intro e he g t' hg
      obtain ⟨E, _, rfl⟩ := List.mem_map.mp he
      exact rt_event E g t' hg)
    (by
      intro e he
      obtain ⟨E, _, rfl⟩ := List.mem_map.mp he
      exact ⟨'{', serMembersL ((eventMembers E).map (fun m => (m.1, m.2.1))) ++ ['}'],
        rfl, by decide, by decide⟩)
    f t (by rw [hmap1]; exact hf)
  rw [hmap1, hmap2] at h
  exact h

theorem rt_doc (D : NewsDoc) : ∀ f t, (serializeNewsL D).length < f →
    parseValue f (serializeNewsL D ++ t) = some (docToJVal D, t) := by
  intro f t hf
  exact rt_objVal (docMembers D) (by intro h; exact List.noConfusion h)
    (by
      intro m hm g t' hg
      simp only [docMembers, List.mem_cons, List.not_mem_nil, or_false] at hm
      rcases hm with rfl | rfl | rfl
      · exact rt_value_str D.summary g t' (by omega)
      · exact rt_eventsArr D.events g t' hg
      · exact rt_strArr D.barTalk g t' hg)
    (by
      intro m hm
      simp only [docMembers, List.mem_cons, List.not_mem_nil, or_false] at hm
      rcases hm with rfl | rfl | rfl
      · exact ⟨'"', escListL D.summary.data ++ ['"'], rfl, by decide⟩
      · exact ⟨'[', serElemsL (D.events.map serEventL) ++ [']'], rfl, by decide⟩
      · exact ⟨'[', serElemsL (D.barTalk.map serStrL) ++ [']'], rfl, by decide⟩)
    (by simp only [docMembers, List.map_cons, List.map_nil]; decide) f t hf

theorem jsonParseL_serialize (D : NewsDoc) :
    jsonParseL (serializeNewsL D) = some (docToJVal D) := by
  unfold jsonParseL
  have hskip : jsonSkipWs (serializeNewsL D) = serializeNewsL D :=
    skipWs_cons_not (by decide) _
  rw [hskip]
  have h := rt_doc D ((serializeNewsL D).length + 1) [] (by omega)
  rw [List.append_nil] at h
  rw [h]
  rfl

/-- Strict decode fails on every proper prefix of a serialized document that
starts with the opening brace: a successful parse of the prefix would extend
to a parse of the full document leaving the non-empty tail unconsumed, while
the roundtrip theorem says the full document parses leaving nothing. -/
theorem strictFail_of_properPrefix (P T : List Char) (D : NewsDoc)
    (hPT : P ++ T = serializeNewsL D) (hT : T ≠ [])
    (hhead : ∃ r, P = '{' :: r) :
    jsonParseL P = none := by
  obtain ⟨r0, rfl⟩ := hhead
  unfold jsonParseL
  rw [skipWs_cons_not (by decide)]
  cases hpv : parseValue (('{' :: r0).length + 1) ('{' :: r0) with
  | none => rfl
  | some pr =>
    obtain ⟨v, r⟩ := pr
    exfalso
    have hext := value_ext _ _ _ _ hpv (Or.inr ⟨'{', r0, rfl, Or.inl rfl⟩) T
    have hlen : ('{' :: r0).length + 1 ≤ (serializeNewsL D).length + 1 := by
      have := congrArg List.length hPT
      rw [List.length_append] at this
      omega
    have hmono := value_mono _ _ _ hext _ hlen
    rw [hPT] at hmono
    have hfull := rt_doc D ((serializeNewsL D).length + 1) [] (by omega)
    rw [List.append_nil] at hfull
    rw [hfull] at hmono
    have hpair := Option.some.inj hmono
    have hrT : r ++ T = [] := (congrArg Prod.snd hpair).symm
    exact hT (List.append_eq_nil.mp hrT).2

theorem dropWhile_all_append {p : Char → Bool} :
    ∀ {l : List Char}, (∀ c ∈ l, p c = true) → ∀ t, (l ++ t).dropWhile p = t.dropWhile p := by
  intro l
  induction l with
  | nil => intro _ t; rfl
  | cons x xs ih =>
    intro h t
    rw [List.cons_append, List.dropWhile_cons, if_pos (h x (List.mem_cons_self x xs))]
    exact ih (fun c hc => h c (List.mem_cons_of_mem x hc)) t

theorem takeWhile_all_append {p : Char → Bool} :
    ∀ {l : List Char}, (∀ c ∈ l, p c = true) → ∀ {d : Char} (t : List Char), p d = false →
      (l ++ (d :: t)).takeWhile p = l := by
  intro l
  induction l with
  | nil =>
    intro _ d t hd
    rw [List.nil_append, List.takeWhile_cons, hd]
    rfl
  | cons x xs ih =>
    intro h d t hd
    rw [List.cons_append, List.takeWhile_cons, h x (List.mem_cons_self x xs),
      if_pos rfl, ih (fun c hc => h c (List.mem_cons_of_mem x hc)) t hd]

theorem splitAtQuote_plain (s : List Char) (hq : ∀ c ∈ s, (c == '"') = false)
    (q : List Char) : splitAtQuote (s ++ ('"' :: q)) = some (s, q) := by
  have hp : ∀ c ∈ s, (fun c => !(c == '"')) c = true := by
    intro c hc
    simp only [Bool.not_eq_true', hq c hc]
  unfold splitAtQuote
  rw [dropWhile_all_append hp]
  show some ((s ++ ('"' :: q)).takeWhile (fun c => !(c == '"')), q) = some (s, q)
  rw [takeWhile_all_append hp q (by decide)]

theorem findKeyQuoted_step {key : List Char} {c : Char} {rest : List Char}
    (h : keyQuotedAt key (c :: rest) = none) :
    findKeyQuoted key (c :: rest) = findKeyQuoted key rest := by
  simp only [findKeyQuoted]
  rw [h]

theorem findKeyQuoted_found {key : List Char} {c : Char} {rest cap : List Char}
    (h : keyQuotedAt key (c :: rest) = some cap) :
    findKeyQuoted key (c :: rest) = some cap := by
  simp only [findKeyQuoted]
  rw [h]

/-- The summary pattern on a buffer that begins with the serialized summary
field of a document whose summary contains no quote: the first attempt at the
opening brace fails, the attempt at the key's own quote succeeds, and the
capture runs to the summary's closing quote. -/
theorem findSummary_prefix (s q : List Char) (hq : ∀ c ∈ s, (c == '"') = false) :
    findKeyQuoted summaryKey ("\x7b\"summary\":\"".data ++ (s ++ ('"' :: q))) = some s := by
  show findKeyQuoted summaryKey
    ('{' :: '"' :: 's' :: 'u' :: 'm' :: 'm' :: 'a' :: 'r' :: 'y' :: '"' :: ':' :: '"' ::
      (s ++ ('"' :: q))) = some s
  have h0 : keyQuotedAt summaryKey
      ('{' :: '"' :: 's' :: 'u' :: 'm' :: 'm' :: 'a' :: 'r' :: 'y' :: '"' :: ':' :: '"' ::
        (s ++ ('"' :: q))) = none := rfl
  rw [findKeyQuoted_step h0]
  have h1 : keyQuotedAt summaryKey
      ('"' :: 's' :: 'u' :: 'm' :: 'm' :: 'a' :: 'r' :: 'y' :: '"' :: ':' :: '"' ::
        (s ++ ('"' :: q))) = some s := by
    show (splitAtQuote (s ++ ('"' :: q))).map (fun p => p.1) = some s
    rw [splitAtQuote_plain s hq q]
    rfl
  exact findKeyQuoted_found h1

theorem unescape_no_backslash :
    ∀ l : List Char, (∀ c ∈ l, (c == '\\') = false) → unescapeQuotes l = l := by
  intro l
  induction l with
  | nil => intro _; rfl
  | cons c rest ih =>
    intro h
    have hc : (c == '\\') = false := h c (List.mem_cons_self c rest)
    have hrest := ih (fun d hd => h d (List.mem_cons_of_mem c hd))
    rw [unescapeQuotes.eq_def]
    split
    · rename_i r heq
      rw [List.cons.injEq] at heq
      rw [heq.1] at hc
      simp at hc
    · rename_i c2 r2 heq
      rw [List.cons.injEq] at heq
      rw [heq.2] at hrest
      rw [hrest, heq.1, heq.2]
    · rename_i heq
      exact List.noConfusion heq

theorem data_append (a b : String) : (a ++ b).data = a.data ++ b.data := rfl

/-- C3: the spec's prefix-summary property, as corrected.  The property as
stated is false — `claim_C3_counterexample` exhibits a document whose summary
contains a backslash, where the capture of the summary pattern runs to the
first quote of the *escaped* text, so the recovered summary is the escaped
form `a\\b`, not `D.summary = a\b`.  The amended property restricts to
documents whose summary serializes to itself (no quote, backslash or control
character): for every proper, non-empty cut `P = \x7b"summary":"S" ++ Q` of
`serializeNews D` (`P ++ T = serializeNews D`, `T ≠ ""`), the recoverer on
`P` yields a result whose `summary` property is exactly `D.summary`. -/
theorem claim_C3_prefix_summary_recovered (D : NewsDoc) (Q T : String)
    (hplain : plainString D.summary = true)
    (hT : T ≠ "")
    (hcut : summaryFieldPrefix D ++ Q ++ T = serializeNews D) :
    (tryParsePartialJSON (summaryFieldPrefix D ++ Q)).map
      (fun r => objGet r summaryStr) = some (.str D.summary) := by
  have hp0 : D.summary.data.all plainChar = true := hplain
  have hplain' : ∀ c ∈ D.summary.data, (c == '"') = false ∧ (c == '\\') = false := by
    intro c hc
    have h2 : plainChar c = true := List.all_eq_true.mp hp0 c hc
    unfold plainChar at h2
    simp only [Bool.and_eq_true, Bool.not_eq_true'] at h2
    exact ⟨h2.1.1, h2.1.2⟩
  have hdata : (summaryFieldPrefix D ++ Q).data =
      "\x7b\"summary\":\"".data ++ (D.summary.data ++ ('"' :: Q.data)) := by
    show (("\x7b\"summary\":\"" ++ D.summary ++ "\"") ++ Q).data = _
    rw [data_append, data_append, data_append, List.append_assoc, List.append_assoc]
    rfl
  have hfull : (summaryFieldPrefix D ++ Q).data ++ T.data = serializeNewsL D := by
    have h' := congrArg String.data hcut
    rw [data_append] at h'
    rw [h']
    rfl
  have hTd : T.data ≠ [] := by
    intro h0
    apply hT
    have h1 : T = String.mk T.data := (stringMk_data T).symm
    rw [h1, h0]
  have hhead : ∃ r, (summaryFieldPrefix D ++ Q).data = '{' :: r := by
    rw [hdata]
    exact ⟨_, rfl⟩
  have hnone : jsonParse (summaryFieldPrefix D ++ Q) = none :=
    strictFail_of_properPrefix _ T.data D hfull hTd hhead
  have hsum : findKeyQuoted summaryKey ((summaryFieldPrefix D ++ Q).data) =
      some D.summary.data := by
    rw [hdata]
    exact findSummary_prefix D.summary.data Q.data (fun c hc => (hplain' c hc).1)
  have hstep : tryParsePartialJSON (summaryFieldPrefix D ++ Q) =
      some (salvage (summaryFieldPrefix D ++ Q)) := by
    unfold tryParsePartialJSON
    rw [hnone]
  rw [hstep, Option.map_some']
  rw [objGet_salvage_summary, hsum]
  show some (JVal.str (String.mk (unescapeQuotes D.summary.data))) =
    some (JVal.str D.summary)
  rw [unescape_no_backslash D.summary.data (fun c hc => (hplain' c hc).2), stringMk_data]

/-- Witness for C3: the document `⟨"ok", [], ["w"]⟩` cut just after the
events bracket; the recovered summary is "ok". -/
theorem claim_C3_prefix_summary_recovered_witness :
    plainString c3WitnessDoc.summary = true ∧ c3WitnessT ≠ "" ∧
    summaryFieldPrefix c3WitnessDoc ++ c3WitnessQ ++ c3WitnessT =
      serializeNews c3WitnessDoc ∧
    (tryParsePartialJSON (summaryFieldPrefix c3WitnessDoc ++ c3WitnessQ)).map
      (fun r => objGet r summaryStr) = some (.str c3WitnessDoc.summary) :=
  ⟨by decide, by decide, by decide,
    claim_C3_prefix_summary_recovered c3WitnessDoc c3WitnessQ c3WitnessT
      (by decide) (by decide) (by decide)⟩

/-- Counterexample to C3 as stated: `c3Doc` has summary `a\b`, which
serializes to `"a\\b"`.  `c3CutInput` is the proper prefix of
`serializeNews c3Doc` that ends right after the summary field's closing
quote — it contains the complete summary field — yet the recoverer returns
summary `a\\b` (the greedy `[^"]*` of the salvage pattern stops at the
quote after the escaped text, and nothing unescapes the backslashes), which
differs from `c3Doc.summary`. -/
theorem claim_C3_counterexample :
    c3CutInput ++ c3CutTail = serializeNews c3Doc ∧
    c3CutTail ≠ "" ∧
    (tryParsePartialJSON c3CutInput).map (fun r => objGet r summaryStr) =
      some (.str ("a\\\\b")) ∧
    ("a\\\\b" : String) ≠ c3Doc.summary := by
  exact ⟨by decide, by decide, by rfl, by decide⟩
